import Mathlib

/-!
Shallow embedding of the external-table ingestion core of pebble
(ingest.go), together with theorems settling the specification claims.

User keys are an arbitrary type with a Go-style three-way comparator
returning a negative, zero, or positive integer.  Functions present in
ingest.go (sstableKeyCompare, ingestValidateKey, ingestLoad1, ingestLoad,
ingestSortAndVerify, ingestCleanup, ingestLink, ingestMemtableOverlaps,
ingestUpdateSeqNum, overlapWithIterator, ingestTargetLevel, DB.ingest)
are translated directly.  Helpers from packages outside ingest.go
(internal/base key utilities, manifest bounds maintenance, the level
iterators, the commit pipeline) are modelled from the specification and
marked as such in their doc comments.
-/

namespace Pebble

/-- Internal-key kinds, with the numeric codes of internal/base.
Modelled from the spec: the kind distinguishes point writes, deletions,
range deletions, range-key operations, and a reserved Invalid value. -/
inductive KeyKind where
  | del
  | set
  | merge
  | rangeDel
  | rangeKeyDel
  | rangeKeyUnset
  | rangeKeySet
  | invalid
  deriving DecidableEq, Repr

/-- Numeric code of a kind, as in internal/base (trailer low byte).
Modelled from the spec: used only to order trailers inside a user key. -/
def KeyKind.code : KeyKind → Nat
  | .del => 0
  | .set => 1
  | .merge => 2
  | .rangeDel => 15
  | .rangeKeyDel => 19
  | .rangeKeyUnset => 20
  | .rangeKeySet => 21
  | .invalid => 255

/-- An internal key: user key, sequence number, kind. -/
structure InternalKey (α : Type) where
  userKey : α
  seqNum : Nat
  kind : KeyKind
  deriving DecidableEq, Repr

/-- Maximum sequence number (internal/base InternalKeySeqNumMax).
Modelled from the spec: exclusive sentinels carry the maximum sequence
value. -/
def seqNumMax : Nat := 2 ^ 56 - 1

/-- Whether a key is an exclusive sentinel: a range-operation kind whose
sequence number is the maximum value.  Modelled from the spec: a key
marking the exclusive upper bound of a range operation, carrying the
maximum sequence value. -/
def InternalKey.isExclusiveSentinel {α : Type} (k : InternalKey α) : Bool :=
  match k.kind with
  | .rangeDel | .rangeKeySet | .rangeKeyUnset | .rangeKeyDel => k.seqNum == seqNumMax
  | _ => false

/-- base.MakeInternalKey: build a key from user key, sequence number and
kind. -/
def makeInternalKey {α : Type} (u : α) (seq : Nat) (kind : KeyKind) : InternalKey α :=
  ⟨u, seq, kind⟩

/-- sstableKeyCompare from ingest.go: compare user keys; on a tie an
exclusive sentinel orders before a non-sentinel. -/
def sstableKeyCompare {α : Type} (cmp : α → α → Int) (a b : InternalKey α) : Int :=
  let c := cmp a.userKey b.userKey
  if c ≠ 0 then c
  else if a.isExclusiveSentinel then (if b.isExclusiveSentinel then 0 else -1)
  else if b.isExclusiveSentinel then 1
  else 0

/-- base.InternalCompare: user keys first, then trailers descending
(trailer = seqNum * 256 + kind code; larger trailer orders first).
Modelled from the spec: total order over internal keys used by the
metadata bounds maintenance. -/
def internalCompare {α : Type} (cmp : α → α → Int) (a b : InternalKey α) : Int :=
  let c := cmp a.userKey b.userKey
  if c ≠ 0 then c
  else
    let ta := a.seqNum * 256 + a.kind.code
    let tb := b.seqNum * 256 + b.kind.code
    if tb < ta then -1 else if ta < tb then 1 else 0

/-- The standard comparator on natural-number user keys, used to
instantiate witnesses. -/
def natCmp (a b : Nat) : Int :=
  if a < b then -1 else if b < a then 1 else 0

/-- Laws of a well-behaved Go comparator: a strict weak order whose
equivalence is substitutive. -/
structure LawfulCmp {α : Type} (cmp : α → α → Int) : Prop where
  eq_symm : ∀ a b, cmp a b = 0 ↔ cmp b a = 0
  lt_iff_gt : ∀ a b, cmp a b < 0 ↔ 0 < cmp b a
  lt_trans : ∀ a b c, cmp a b < 0 → cmp b c < 0 → cmp a c < 0
  eq_lt_congr : ∀ a b c, cmp a b = 0 → (cmp a c < 0 ↔ cmp b c < 0)
  eq_eq_congr : ∀ a b c, cmp a b = 0 → (cmp a c = 0 ↔ cmp b c = 0)

theorem lawful_natCmp : LawfulCmp natCmp := by
  constructor
  · intro a b; simp only [natCmp]; split_ifs <;> first | decide | omega
  · intro a b; simp only [natCmp]; split_ifs <;> first | decide | omega
  · intro a b c h1 h2; simp only [natCmp] at *; split_ifs at * <;> first | decide | omega
  · intro a b c h1; simp only [natCmp] at *; split_ifs at * <;> first | decide | omega
  · intro a b c h1; simp only [natCmp] at *; split_ifs at * <;> first | decide | omega

namespace LawfulCmp

variable {α : Type} {cmp : α → α → Int}

theorem eq_refl (h : LawfulCmp cmp) (a : α) : cmp a a = 0 := by
  rcases lt_trichotomy (cmp a a) 0 with hlt | he | hgt
  · have := (h.lt_iff_gt a a).mp hlt; omega
  · exact he
  · have := (h.lt_iff_gt a a).mpr hgt; omega

/-- Substitution of comparator-equal keys in the right argument. -/
theorem eq_lt_congr_right (h : LawfulCmp cmp) (a b c : α) (hbc : cmp b c = 0) :
    cmp a b < 0 ↔ cmp a c < 0 := by
  have hcb : cmp c b = 0 := (h.eq_symm b c).mp hbc
  have h1 := h.eq_lt_congr c b a hcb
  have h2 := h.eq_eq_congr c b a hcb
  constructor
  · intro hab
    have hba : 0 < cmp b a := (h.lt_iff_gt a b).mp hab
    have hca : ¬ cmp c a < 0 := by
      intro hca; have := h1.mp hca; omega
    have hcane : ¬ cmp c a = 0 := by
      intro hca; have := h2.mp hca; omega
    exact (h.lt_iff_gt a c).mpr (by omega)
  · intro hac
    have hca : 0 < cmp c a := (h.lt_iff_gt a c).mp hac
    have hba : ¬ cmp b a < 0 := by
      intro hba; have := h1.mpr hba; omega
    have hbane : ¬ cmp b a = 0 := by
      intro hba; have := h2.mpr hba; omega
    exact (h.lt_iff_gt a b).mpr (by omega)

theorem eq_eq_congr_right (h : LawfulCmp cmp) (a b c : α) (hbc : cmp b c = 0) :
    cmp a b = 0 ↔ cmp a c = 0 := by
  have hab := h.eq_symm a b
  have hac := h.eq_symm a c
  rw [hab, hac]
  exact h.eq_eq_congr b c a hbc

theorem lt_of_lt_of_eq (h : LawfulCmp cmp) (a b c : α) (hab : cmp a b < 0)
    (hbc : cmp b c = 0) : cmp a c < 0 :=
  (h.eq_lt_congr_right a b c hbc).mp hab

theorem lt_of_eq_of_lt (h : LawfulCmp cmp) (a b c : α) (hab : cmp a b = 0)
    (hbc : cmp b c < 0) : cmp a c < 0 :=
  (h.eq_lt_congr a b c hab).mpr hbc

theorem eq_trans (h : LawfulCmp cmp) (a b c : α) (hab : cmp a b = 0)
    (hbc : cmp b c = 0) : cmp a c = 0 :=
  (h.eq_eq_congr_right a b c hbc).mp hab

end LawfulCmp

section Comparator

variable {α : Type} {cmp : α → α → Int}

theorem sstableKeyCompare_lt_iff (a b : InternalKey α) :
    sstableKeyCompare cmp a b < 0 ↔
      (cmp a.userKey b.userKey < 0 ∨
        (cmp a.userKey b.userKey = 0 ∧ a.isExclusiveSentinel = true ∧
          b.isExclusiveSentinel = false)) := by
  simp only [sstableKeyCompare]
  split_ifs with h1 h2 h3 h4 <;> simp_all <;> omega

theorem sstableKeyCompare_eq_zero_iff (a b : InternalKey α) :
    sstableKeyCompare cmp a b = 0 ↔
      (cmp a.userKey b.userKey = 0 ∧
        a.isExclusiveSentinel = b.isExclusiveSentinel) := by
  simp only [sstableKeyCompare]
  split_ifs with h1 h2 h3 h4 <;> simp_all

theorem sstableKeyCompare_le_iff (a b : InternalKey α) :
    sstableKeyCompare cmp a b ≤ 0 ↔
      (cmp a.userKey b.userKey < 0 ∨
        (cmp a.userKey b.userKey = 0 ∧
          (a.isExclusiveSentinel = true ∨ b.isExclusiveSentinel = false))) := by
  simp only [sstableKeyCompare]
  split_ifs with h1 h2 h3 h4 <;> simp_all <;> omega

/-- Transitivity of the sentinel-aware order: strict then weak. -/
theorem sstableKeyCompare_lt_of_lt_of_le (h : LawfulCmp cmp) (a b c : InternalKey α)
    (hab : sstableKeyCompare cmp a b < 0) (hbc : sstableKeyCompare cmp b c ≤ 0) :
    sstableKeyCompare cmp a c < 0 := by
  rw [sstableKeyCompare_lt_iff] at hab ⊢
  rw [sstableKeyCompare_le_iff] at hbc
  rcases hab with hab | ⟨hab, sa, sb⟩
  · rcases hbc with hbc | ⟨hbc, _⟩
    · exact Or.inl (h.lt_trans _ _ _ hab hbc)
    · exact Or.inl (h.lt_of_lt_of_eq _ _ _ hab hbc)
  · rcases hbc with hbc | ⟨hbc, hs⟩
    · exact Or.inl (h.lt_of_eq_of_lt _ _ _ hab hbc)
    · rcases hs with hs | hs
      · rw [sb] at hs; exact absurd hs (by simp)
      · exact Or.inr ⟨h.eq_trans _ _ _ hab hbc, sa, hs⟩

/-- Transitivity of the sentinel-aware order: weak then strict. -/
theorem sstableKeyCompare_lt_of_le_of_lt (h : LawfulCmp cmp) (a b c : InternalKey α)
    (hab : sstableKeyCompare cmp a b ≤ 0) (hbc : sstableKeyCompare cmp b c < 0) :
    sstableKeyCompare cmp a c < 0 := by
  rw [sstableKeyCompare_le_iff] at hab
  rw [sstableKeyCompare_lt_iff] at hbc ⊢
  rcases hab with hab | ⟨hab, hs⟩
  · rcases hbc with hbc | ⟨hbc, _⟩
    · exact Or.inl (h.lt_trans _ _ _ hab hbc)
    · exact Or.inl (h.lt_of_lt_of_eq _ _ _ hab hbc)
  · rcases hbc with hbc | ⟨hbc, sb, sc⟩
    · exact Or.inl (h.lt_of_eq_of_lt _ _ _ hab hbc)
    · rcases hs with hs | hs
      · exact Or.inr ⟨h.eq_trans _ _ _ hab hbc, hs, sc⟩
      · rw [hs] at sb; exact absurd sb (by simp)

end Comparator

/-- Claim C4: for equal user keys, sstableKeyCompare on a non-sentinel
versus an exclusive sentinel, on a sentinel versus a non-sentinel, and
on keys of equal sentinel status.  The code orders the sentinel strictly
BEFORE the non-sentinel (returns +1 for non-sentinel vs sentinel), which
is the reverse of the direction the claim states; the equal-status case
returns 0 as claimed. -/
theorem thmC4 {α : Type} (cmp : α → α → Int) (a b : InternalKey α)
    (h : cmp a.userKey b.userKey = 0) :
    (a.isExclusiveSentinel = false → b.isExclusiveSentinel = true →
      sstableKeyCompare cmp a b = 1) ∧
    (a.isExclusiveSentinel = true → b.isExclusiveSentinel = false →
      sstableKeyCompare cmp a b = -1) ∧
    (a.isExclusiveSentinel = b.isExclusiveSentinel →
      sstableKeyCompare cmp a b = 0) := by
  refine ⟨fun h1 h2 => ?_, fun h1 h2 => ?_, fun h1 => ?_⟩ <;>
    simp only [sstableKeyCompare] <;> split_ifs <;> simp_all

/-- Witness for thmC4 at concrete keys with equal user keys. -/
theorem thmC4_witness :
    natCmp (5 : Nat) 5 = 0 ∧
      ((InternalKey.mk (5 : Nat) 0 .set).isExclusiveSentinel = false →
        (InternalKey.mk (5 : Nat) seqNumMax .rangeDel).isExclusiveSentinel = true →
        sstableKeyCompare natCmp (InternalKey.mk 5 0 .set)
          (InternalKey.mk 5 seqNumMax .rangeDel) = 1) ∧
      ((InternalKey.mk (5 : Nat) 0 .set).isExclusiveSentinel = true →
        (InternalKey.mk (5 : Nat) seqNumMax .rangeDel).isExclusiveSentinel = false →
        sstableKeyCompare natCmp (InternalKey.mk 5 0 .set)
          (InternalKey.mk 5 seqNumMax .rangeDel) = -1) ∧
      ((InternalKey.mk (5 : Nat) 0 .set).isExclusiveSentinel =
          (InternalKey.mk (5 : Nat) seqNumMax .rangeDel).isExclusiveSentinel →
        sstableKeyCompare natCmp (InternalKey.mk 5 0 .set)
          (InternalKey.mk 5 seqNumMax .rangeDel) = 0) :=
  ⟨by decide, thmC4 natCmp (InternalKey.mk 5 0 .set)
    (InternalKey.mk 5 seqNumMax .rangeDel) (by decide)⟩

/-- Counterexample to claim C4 as stated: a non-sentinel key and an
exclusive sentinel with the same user key; the claim demands a result
strictly less than zero, but sstableKeyCompare returns +1 (the sentinel
orders first, not last). -/
theorem thmC4_cex :
    (InternalKey.mk (5 : Nat) 0 .set).isExclusiveSentinel = false ∧
    (InternalKey.mk (5 : Nat) seqNumMax .rangeDel).isExclusiveSentinel = true ∧
    natCmp (InternalKey.mk (5 : Nat) 0 .set).userKey
      (InternalKey.mk (5 : Nat) seqNumMax .rangeDel).userKey = 0 ∧
    sstableKeyCompare natCmp (InternalKey.mk (5 : Nat) 0 .set)
      (InternalKey.mk (5 : Nat) seqNumMax .rangeDel) = 1 ∧
    ¬ sstableKeyCompare natCmp (InternalKey.mk (5 : Nat) 0 .set)
      (InternalKey.mk (5 : Nat) seqNumMax .rangeDel) < 0 := by
  refine ⟨by decide, by decide, by decide, by decide, by decide⟩

/-- Error kinds surfaced by the ingestion core (section 7 taxonomy). -/
inductive IngestErr where
  | corruption
  | formatMismatch
  | overlap
  | ioFail
  deriving DecidableEq, Repr

/-- File descriptor (manifest fileMetadata), restricted to the fields the
ingestion core reads and writes. -/
structure FileMetadata (α : Type) where
  fileNum : Nat
  size : Nat
  smallest : InternalKey α
  largest : InternalKey α
  hasPointKeys : Bool
  smallestPointKey : InternalKey α
  largestPointKey : InternalKey α
  hasRangeKeys : Bool
  smallestRangeKey : InternalKey α
  largestRangeKey : InternalKey α
  smallestSeqNum : Nat
  largestSeqNum : Nat
  deriving DecidableEq, Repr

/-- fileMetadata.Validate.  Modelled from the spec: cross-validation that
the overall bounds are ordered, each present category's bounds are
ordered and lie within the overall bounds, at least one category is
present, and the sequence-number bounds are ordered (manifest package,
not part of ingest.go). -/
def validateMeta {α : Type} (cmp : α → α → Int) (m : FileMetadata α) : Bool :=
  (m.hasPointKeys || m.hasRangeKeys)
  && decide (internalCompare cmp m.smallest m.largest ≤ 0)
  && (!m.hasPointKeys ||
      (decide (internalCompare cmp m.smallestPointKey m.largestPointKey ≤ 0)
        && decide (internalCompare cmp m.smallest m.smallestPointKey ≤ 0)
        && decide (internalCompare cmp m.largestPointKey m.largest ≤ 0)))
  && (!m.hasRangeKeys ||
      (decide (internalCompare cmp m.smallestRangeKey m.largestRangeKey ≤ 0)
        && decide (internalCompare cmp m.smallest m.smallestRangeKey ≤ 0)
        && decide (internalCompare cmp m.largestRangeKey m.largest ≤ 0)))
  && decide (m.smallestSeqNum ≤ m.largestSeqNum)

/-- The per-file mutation performed by ingestUpdateSeqNum: rewrite every
bound with the assigned sequence number, except bounds that are
exclusive sentinels, and record smallestSeqNum = largestSeqNum =
seqNum. -/
def updateMeta {α : Type} (seqNum : Nat) (m : FileMetadata α) : FileMetadata α :=
  { m with
    smallestPointKey :=
      if m.hasPointKeys then
        makeInternalKey m.smallestPointKey.userKey seqNum m.smallestPointKey.kind
      else m.smallestPointKey,
    smallestRangeKey :=
      if m.hasRangeKeys then
        makeInternalKey m.smallestRangeKey.userKey seqNum m.smallestRangeKey.kind
      else m.smallestRangeKey,
    smallest := makeInternalKey m.smallest.userKey seqNum m.smallest.kind,
    largestPointKey :=
      if m.hasPointKeys && !m.largestPointKey.isExclusiveSentinel then
        makeInternalKey m.largestPointKey.userKey seqNum m.largestPointKey.kind
      else m.largestPointKey,
    largest :=
      if !m.largest.isExclusiveSentinel then
        makeInternalKey m.largest.userKey seqNum m.largest.kind
      else m.largest,
    smallestSeqNum := seqNum,
    largestSeqNum := seqNum }

/-- ingestUpdateSeqNum from ingest.go.  Returns the metadata list after
the in-place mutations together with the error, if any: on a validation
failure at a file the files before it and the failing file itself are
already mutated and the remainder is untouched, matching the in-place
Go loop, which returns at the first failure. -/
def ingestUpdateSeqNum {α : Type} (cmp : α → α → Int) (seqNum : Nat) :
    List (FileMetadata α) → (List (FileMetadata α) × Option IngestErr)
  | [] => ([], none)
  | m :: rest =>
    let m' := updateMeta seqNum m
    if validateMeta cmp m' then
      let r := ingestUpdateSeqNum cmp (seqNum + 1) rest
      (m' :: r.1, r.2)
    else (m' :: rest, some .corruption)

theorem ingestUpdateSeqNum_length {α : Type} (cmp : α → α → Int) (s : Nat)
    (ms : List (FileMetadata α)) :
    (ingestUpdateSeqNum cmp s ms).1.length = ms.length := by
  induction ms generalizing s with
  | nil => rfl
  | cons m rest ih =>
    simp only [ingestUpdateSeqNum]
    split <;> simp [ih]

theorem ingestUpdateSeqNum_cons_pos {α : Type} (cmp : α → α → Int) (s : Nat)
    (m : FileMetadata α) (rest : List (FileMetadata α))
    (hv : validateMeta cmp (updateMeta s m) = true) :
    ingestUpdateSeqNum cmp s (m :: rest) =
      (updateMeta s m :: (ingestUpdateSeqNum cmp (s + 1) rest).1,
        (ingestUpdateSeqNum cmp (s + 1) rest).2) := by
  simp only [ingestUpdateSeqNum]
  rw [if_pos hv]

theorem ingestUpdateSeqNum_cons_neg {α : Type} (cmp : α → α → Int) (s : Nat)
    (m : FileMetadata α) (rest : List (FileMetadata α))
    (hv : validateMeta cmp (updateMeta s m) = false) :
    ingestUpdateSeqNum cmp s (m :: rest) =
      (updateMeta s m :: rest, some .corruption) := by
  simp only [ingestUpdateSeqNum]
  rw [if_neg (by simp [hv])]

theorem ingestUpdateSeqNum_get {α : Type} (cmp : α → α → Int) (s : Nat)
    (ms : List (FileMetadata α)) (h : (ingestUpdateSeqNum cmp s ms).2 = none)
    (i : Nat) (hi : i < ms.length) (ho : i < (ingestUpdateSeqNum cmp s ms).1.length) :
    (ingestUpdateSeqNum cmp s ms).1.get ⟨i, ho⟩ = updateMeta (s + i) (ms.get ⟨i, hi⟩) := by
  induction ms generalizing s i with
  | nil => exact absurd hi (by simp)
  | cons m rest ih =>
    cases hv : validateMeta cmp (updateMeta s m) with
    | false =>
      rw [ingestUpdateSeqNum_cons_neg cmp s m rest hv] at h
      exact absurd h (by simp)
    | true =>
      have e := ingestUpdateSeqNum_cons_pos cmp s m rest hv
      rw [e] at h
      simp only [List.get_eq_getElem, e]
      cases i with
      | zero => simp
      | succ j =>
        have hj : j < rest.length := by simpa using hi
        have hjo : j < (ingestUpdateSeqNum cmp (s + 1) rest).1.length := by
          have := ingestUpdateSeqNum_length cmp (s + 1) rest
          omega
        have hrec := ih (s + 1) (by simpa using h) j hj hjo
        simp only [List.get_eq_getElem] at hrec
        simp only [List.getElem_cons_succ]
        rw [hrec]
        congr 1
        omega

/-- Claim C3: after successful sequence stamping at base S of a list of n
descriptors, the smallest sequence numbers across the files are exactly
S, S+1, ..., S+n-1 in the final order (the i-th descriptor, 0-based,
receives S+i), and in every file the smallest and largest sequence
numbers coincide. -/
theorem thmC3 {α : Type} (cmp : α → α → Int) (S : Nat) (metas : List (FileMetadata α))
    (h : (ingestUpdateSeqNum cmp S metas).2 = none) :
    ((ingestUpdateSeqNum cmp S metas).1.map (fun m => m.smallestSeqNum) =
      List.range' S metas.length)
    ∧ (∀ m ∈ (ingestUpdateSeqNum cmp S metas).1, m.smallestSeqNum = m.largestSeqNum)
    ∧ (∀ (i : Nat) (hi : i < metas.length)
        (ho : i < (ingestUpdateSeqNum cmp S metas).1.length),
        ((ingestUpdateSeqNum cmp S metas).1.get ⟨i, ho⟩).smallestSeqNum = S + i ∧
        ((ingestUpdateSeqNum cmp S metas).1.get ⟨i, ho⟩).largestSeqNum = S + i) := by
  refine ⟨?_, ?_, ?_⟩
  · induction metas generalizing S with
    | nil => rfl
    | cons m rest ih =>
      cases hv : validateMeta cmp (updateMeta S m) with
      | false =>
        rw [ingestUpdateSeqNum_cons_neg cmp S m rest hv] at h
        exact absurd h (by simp)
      | true =>
        rw [ingestUpdateSeqNum_cons_pos cmp S m rest hv] at h ⊢
        have := ih (S + 1) (by simpa using h)
        simp [this, updateMeta, List.range'_succ]
  · intro m hm
    obtain ⟨⟨i, ho⟩, rfl⟩ := List.mem_iff_get.mp hm
    have hi : i < metas.length := by
      have := ingestUpdateSeqNum_length cmp S metas
      omega
    rw [ingestUpdateSeqNum_get cmp S metas h i hi ho]
    simp [updateMeta]
  · intro i hi ho
    rw [ingestUpdateSeqNum_get cmp S metas h i hi ho]
    simp [updateMeta]

/-- Claim C5: during sequence stamping, a largest bound (overall or
point-category) that is an exclusive sentinel is left entirely
unchanged, while a non-sentinel largest bound is rewritten with the
assigned sequence number. -/
theorem thmC5 {α : Type} (cmp : α → α → Int) (S : Nat) (metas : List (FileMetadata α))
    (h : (ingestUpdateSeqNum cmp S metas).2 = none)
    (i : Nat) (hi : i < metas.length)
    (ho : i < (ingestUpdateSeqNum cmp S metas).1.length) :
    (((metas.get ⟨i, hi⟩).largest.isExclusiveSentinel = true →
        ((ingestUpdateSeqNum cmp S metas).1.get ⟨i, ho⟩).largest =
          (metas.get ⟨i, hi⟩).largest)
      ∧ ((metas.get ⟨i, hi⟩).largest.isExclusiveSentinel = false →
        ((ingestUpdateSeqNum cmp S metas).1.get ⟨i, ho⟩).largest =
          makeInternalKey (metas.get ⟨i, hi⟩).largest.userKey (S + i)
            (metas.get ⟨i, hi⟩).largest.kind))
    ∧ ((metas.get ⟨i, hi⟩).hasPointKeys = true →
        ((metas.get ⟨i, hi⟩).largestPointKey.isExclusiveSentinel = true →
          ((ingestUpdateSeqNum cmp S metas).1.get ⟨i, ho⟩).largestPointKey =
            (metas.get ⟨i, hi⟩).largestPointKey)
        ∧ ((metas.get ⟨i, hi⟩).largestPointKey.isExclusiveSentinel = false →
          ((ingestUpdateSeqNum cmp S metas).1.get ⟨i, ho⟩).largestPointKey =
            makeInternalKey (metas.get ⟨i, hi⟩).largestPointKey.userKey (S + i)
              (metas.get ⟨i, hi⟩).largestPointKey.kind)) := by
  rw [ingestUpdateSeqNum_get cmp S metas h i hi ho]
  refine ⟨⟨fun hs => ?_, fun hs => ?_⟩, fun hp => ⟨fun hs => ?_, fun hs => ?_⟩⟩
  · simp only [List.get_eq_getElem] at hs ⊢; simp [updateMeta, hs]
  · simp only [List.get_eq_getElem] at hs ⊢; simp [updateMeta, hs]
  · simp only [List.get_eq_getElem] at hp hs ⊢; simp [updateMeta, hs, hp]
  · simp only [List.get_eq_getElem] at hp hs ⊢; simp [updateMeta, hs, hp]

/-- A simple point-key-only descriptor over keys 1..2. -/
def exMetaA : FileMetadata Nat :=
  { fileNum := 1, size := 10,
    smallest := ⟨1, 0, .set⟩, largest := ⟨2, 0, .set⟩,
    hasPointKeys := true,
    smallestPointKey := ⟨1, 0, .set⟩, largestPointKey := ⟨2, 0, .set⟩,
    hasRangeKeys := false,
    smallestRangeKey := ⟨0, 0, .del⟩, largestRangeKey := ⟨0, 0, .del⟩,
    smallestSeqNum := 0, largestSeqNum := 0 }

/-- A simple point-key-only descriptor over keys 3..4. -/
def exMetaB : FileMetadata Nat :=
  { fileNum := 2, size := 11,
    smallest := ⟨3, 0, .set⟩, largest := ⟨4, 0, .set⟩,
    hasPointKeys := true,
    smallestPointKey := ⟨3, 0, .set⟩, largestPointKey := ⟨4, 0, .set⟩,
    hasRangeKeys := false,
    smallestRangeKey := ⟨0, 0, .del⟩, largestRangeKey := ⟨0, 0, .del⟩,
    smallestSeqNum := 0, largestSeqNum := 0 }

/-- A descriptor whose largest bound is an exclusive range-deletion
sentinel, as for a file ending in a range deletion over [1, 5). -/
def exMetaSent : FileMetadata Nat :=
  { fileNum := 3, size := 12,
    smallest := ⟨1, 0, .set⟩, largest := ⟨5, seqNumMax, .rangeDel⟩,
    hasPointKeys := true,
    smallestPointKey := ⟨1, 0, .set⟩, largestPointKey := ⟨5, seqNumMax, .rangeDel⟩,
    hasRangeKeys := false,
    smallestRangeKey := ⟨0, 0, .del⟩, largestRangeKey := ⟨0, 0, .del⟩,
    smallestSeqNum := 0, largestSeqNum := 0 }

/-- Witness for thmC3 at a concrete successful two-file stamping. -/
theorem thmC3_witness :
    (ingestUpdateSeqNum natCmp 10 [exMetaA, exMetaB]).2 = none ∧
    (((ingestUpdateSeqNum natCmp 10 [exMetaA, exMetaB]).1.map
        (fun m => m.smallestSeqNum) = List.range' 10 [exMetaA, exMetaB].length)
      ∧ (∀ m ∈ (ingestUpdateSeqNum natCmp 10 [exMetaA, exMetaB]).1,
          m.smallestSeqNum = m.largestSeqNum)
      ∧ (∀ (i : Nat) (hi : i < [exMetaA, exMetaB].length)
          (ho : i < (ingestUpdateSeqNum natCmp 10 [exMetaA, exMetaB]).1.length),
          ((ingestUpdateSeqNum natCmp 10 [exMetaA, exMetaB]).1.get
              ⟨i, ho⟩).smallestSeqNum = 10 + i ∧
          ((ingestUpdateSeqNum natCmp 10 [exMetaA, exMetaB]).1.get
              ⟨i, ho⟩).largestSeqNum = 10 + i)) :=
  ⟨by decide, thmC3 natCmp 10 [exMetaA, exMetaB] (by decide)⟩

/-- Witness for thmC5 at a concrete file whose largest bound is an
exclusive sentinel. -/
theorem thmC5_witness :
    (ingestUpdateSeqNum natCmp 7 [exMetaSent]).2 = none ∧
    ((([exMetaSent].get ⟨0, by decide⟩).largest.isExclusiveSentinel = true →
        ((ingestUpdateSeqNum natCmp 7 [exMetaSent]).1.get
            ⟨0, by decide⟩).largest = ([exMetaSent].get ⟨0, by decide⟩).largest)
      ∧ (([exMetaSent].get ⟨0, by decide⟩).largest.isExclusiveSentinel = false →
        ((ingestUpdateSeqNum natCmp 7 [exMetaSent]).1.get
            ⟨0, by decide⟩).largest =
          makeInternalKey ([exMetaSent].get ⟨0, by decide⟩).largest.userKey (7 + 0)
            ([exMetaSent].get ⟨0, by decide⟩).largest.kind))
    ∧ (([exMetaSent].get ⟨0, by decide⟩).hasPointKeys = true →
        (([exMetaSent].get ⟨0, by decide⟩).largestPointKey.isExclusiveSentinel = true →
          ((ingestUpdateSeqNum natCmp 7 [exMetaSent]).1.get
              ⟨0, by decide⟩).largestPointKey =
            ([exMetaSent].get ⟨0, by decide⟩).largestPointKey)
        ∧ (([exMetaSent].get ⟨0, by decide⟩).largestPointKey.isExclusiveSentinel = false →
          ((ingestUpdateSeqNum natCmp 7 [exMetaSent]).1.get
              ⟨0, by decide⟩).largestPointKey =
            makeInternalKey
              ([exMetaSent].get ⟨0, by decide⟩).largestPointKey.userKey (7 + 0)
              ([exMetaSent].get ⟨0, by decide⟩).largestPointKey.kind)) :=
  ⟨by decide, thmC5 natCmp 7 [exMetaSent] (by decide) 0 (by decide) (by decide)⟩

/-- Less function of the metaAndPaths sort.Interface: strictly smaller
smallest user key. -/
def metaPathLess {α : Type} (cmp : α → α → Int) (x y : FileMetadata α × Nat) : Bool :=
  decide (cmp x.1.smallest.userKey y.1.smallest.userKey < 0)

/-- Insertion into a sorted list used to model sort.Sort: the element is
placed before the first entry it is strictly less than. -/
def insertBy {β : Type} (lt : β → β → Bool) (x : β) : List β → List β
  | [] => [x]
  | y :: ys => if lt x y then x :: y :: ys else y :: insertBy lt x ys

/-- Model of sort.Sort: an insertion sort with the given Less function.
sort.Sort guarantees only that the result is a permutation ordered so
that no later element is Less than an earlier one, which this sort
produces for a strict-weak-order Less. -/
def sortBy {β : Type} (lt : β → β → Bool) : List β → List β
  | [] => []
  | x :: xs => insertBy lt x (sortBy lt xs)

/-- The adjacent-pair overlap scan of ingestSortAndVerify: for each i >= 1
the previous largest must compare strictly below the current smallest. -/
def verifyAdjacent {α : Type} (cmp : α → α → Int) : List (FileMetadata α) → Bool
  | [] => true
  | [_] => true
  | a :: b :: rest =>
    decide (sstableKeyCompare cmp a.largest b.smallest < 0)
      && verifyAdjacent cmp (b :: rest)

/-- ingestSortAndVerify from ingest.go: sort descriptors (carrying paths
in lockstep) by smallest user key, then fail with Overlap unless every
adjacent pair is strictly non-overlapping.  Returns the sorted lists,
modelling the in-place permutation. -/
def ingestSortAndVerify {α : Type} (cmp : α → α → Int)
    (meta : List (FileMetadata α)) (paths : List Nat) :
    Except IngestErr (List (FileMetadata α) × List Nat) :=
  if meta.length ≤ 1 then .ok (meta, paths)
  else if verifyAdjacent cmp ((sortBy (metaPathLess cmp) (meta.zip paths)).map Prod.fst) then
    .ok ((sortBy (metaPathLess cmp) (meta.zip paths)).map Prod.fst,
      (sortBy (metaPathLess cmp) (meta.zip paths)).map Prod.snd)
  else .error .overlap

theorem insertBy_perm {β : Type} (lt : β → β → Bool) (x : β) (l : List β) :
    (insertBy lt x l).Perm (x :: l) := by
  induction l with
  | nil => simp [insertBy]
  | cons y ys ih =>
    simp only [insertBy]
    split
    · exact List.Perm.refl _
    · exact (ih.cons y).trans (List.Perm.swap x y ys)

theorem sortBy_perm {β : Type} (lt : β → β → Bool) (l : List β) :
    (sortBy lt l).Perm l := by
  induction l with
  | nil => simp [sortBy]
  | cons x xs ih => exact (insertBy_perm lt x (sortBy lt xs)).trans (ih.cons x)

/-- If the adjacent scan succeeds and every file has ordered bounds, the
strict non-overlap relation holds pairwise across the whole list. -/
theorem verifyAdjacent_pairwise {α : Type} {cmp : α → α → Int} (h : LawfulCmp cmp)
    (l : List (FileMetadata α)) (hv : verifyAdjacent cmp l = true)
    (hval : ∀ m ∈ l, sstableKeyCompare cmp m.smallest m.largest ≤ 0) :
    l.Pairwise (fun a b => sstableKeyCompare cmp a.largest b.smallest < 0) := by
  induction l with
  | nil => simp
  | cons a rest ih =>
    cases rest with
    | nil => simp
    | cons b rest2 =>
      simp only [verifyAdjacent, Bool.and_eq_true, decide_eq_true_eq] at hv
      obtain ⟨hab, hv2⟩ := hv
      have hrest := ih hv2 (fun m hm => hval m (List.mem_cons_of_mem a hm))
      refine List.Pairwise.cons ?_ hrest
      intro c hc
      rcases List.mem_cons.mp hc with rfl | hc2
      · exact hab
      · have hbc : sstableKeyCompare cmp b.largest c.smallest < 0 :=
          (List.pairwise_cons.mp hrest).1 c hc2
        have hvb : sstableKeyCompare cmp b.smallest b.largest ≤ 0 :=
          hval b (by simp)
        have h1 : sstableKeyCompare cmp a.largest b.largest < 0 :=
          sstableKeyCompare_lt_of_lt_of_le h _ _ _ hab hvb
        exact sstableKeyCompare_lt_of_lt_of_le h _ _ _ h1 (le_of_lt hbc)

/-- Claim C1: any descriptor list accepted by ingestSortAndVerify (under
a lawful comparator, with each descriptor's bounds ordered and a path
list of matching length) satisfies all-pairs strict non-overlap in the
resulting order: for i < j the i-th largest compares strictly below the
j-th smallest under the sentinel-aware comparator. -/
theorem thmC1 {α : Type} (cmp : α → α → Int) (h : LawfulCmp cmp)
    (meta : List (FileMetadata α)) (paths : List Nat)
    (hlen : paths.length = meta.length)
    (hval : ∀ m ∈ meta, sstableKeyCompare cmp m.smallest m.largest ≤ 0)
    (meta2 : List (FileMetadata α)) (paths2 : List Nat)
    (hok : ingestSortAndVerify cmp meta paths = .ok (meta2, paths2)) :
    ∀ (i j : Nat) (hi : i < meta2.length) (hj : j < meta2.length), i < j →
      sstableKeyCompare cmp (meta2.get ⟨i, hi⟩).largest
        (meta2.get ⟨j, hj⟩).smallest < 0 := by
  unfold ingestSortAndVerify at hok
  by_cases hsz : meta.length ≤ 1
  · rw [if_pos hsz] at hok
    simp only [Except.ok.injEq, Prod.mk.injEq] at hok
    obtain ⟨rfl, rfl⟩ := hok
    intro i j hi hj hij
    omega
  · rw [if_neg hsz] at hok
    by_cases hv : verifyAdjacent cmp
        ((sortBy (metaPathLess cmp) (meta.zip paths)).map Prod.fst) = true
    · rw [if_pos hv] at hok
      simp only [Except.ok.injEq, Prod.mk.injEq] at hok
      obtain ⟨rfl, rfl⟩ := hok
      have hperm : ((sortBy (metaPathLess cmp) (meta.zip paths)).map Prod.fst).Perm meta := by
        have h1 := (sortBy_perm (metaPathLess cmp) (meta.zip paths)).map Prod.fst
        have h2 : (meta.zip paths).map Prod.fst = meta :=
          List.map_fst_zip meta paths (by omega)
        rw [h2] at h1
        exact h1
      have hval2 : ∀ m ∈ (sortBy (metaPathLess cmp) (meta.zip paths)).map Prod.fst,
          sstableKeyCompare cmp m.smallest m.largest ≤ 0 :=
        fun m hm => hval m (hperm.mem_iff.mp hm)
      have hpw := verifyAdjacent_pairwise h _ hv hval2
      rw [List.pairwise_iff_get] at hpw
      intro i j hi hj hij
      exact hpw ⟨i, hi⟩ ⟨j, hj⟩ hij
    · rw [if_neg hv] at hok
      exact absurd hok (by simp)

/-- Witness for thmC1 at a concrete accepted two-file input, given to the
sorter out of order. -/
theorem thmC1_witness :
    LawfulCmp natCmp ∧
    ([(0 : Nat), 1].length = [exMetaB, exMetaA].length) ∧
    (∀ m ∈ [exMetaB, exMetaA],
      sstableKeyCompare natCmp m.smallest m.largest ≤ 0) ∧
    (ingestSortAndVerify natCmp [exMetaB, exMetaA] [0, 1] =
      .ok ([exMetaA, exMetaB], [1, 0])) ∧
    (∀ (i j : Nat) (hi : i < [exMetaA, exMetaB].length)
        (hj : j < [exMetaA, exMetaB].length), i < j →
      sstableKeyCompare natCmp ([exMetaA, exMetaB].get ⟨i, hi⟩).largest
        ([exMetaA, exMetaB].get ⟨j, hj⟩).smallest < 0) :=
  ⟨lawful_natCmp, by decide, by decide, rfl,
    thmC1 natCmp lawful_natCmp [exMetaB, exMetaA] [0, 1] (by decide) (by decide)
      [exMetaA, exMetaB] [1, 0] rfl⟩

/-- A keyspan fragment: start user key with its trailer, exclusive end
user key, and an emptiness flag (a span with no keys).  Modelled from
the spec: range-deletion and range-key iterators produce spans
(start internal key, exclusive end user key). -/
structure Span (α : Type) where
  start : α
  endKey : α
  seqNum : Nat
  kind : KeyKind
  isEmptySpan : Bool
  deriving DecidableEq, Repr

/-- Span.SmallestKey: the start user key with the span's trailer. -/
def Span.smallestKey {α : Type} (s : Span α) : InternalKey α :=
  ⟨s.start, s.seqNum, s.kind⟩

/-- Span.LargestKey: an exclusive sentinel at the end user key. -/
def Span.largestKey {α : Type} (s : Span α) : InternalKey α :=
  ⟨s.endKey, seqNumMax, s.kind⟩

/-- Point-iterator SeekGE on the iterator's (sorted) contents: the first
key whose user key is at least the target.  Modelled from the spec:
iterators are lazy finite sequences exposing seek_ge. -/
def seekGE {α : Type} (cmp : α → α → Int) (keys : List (InternalKey α)) (target : α) :
    Option (InternalKey α) :=
  keys.find? (fun k => decide (0 ≤ cmp k.userKey target))

/-- Fragment-iterator positioning for the span scan of the overlap probe:
SeekLT places the iterator at the last span whose start is below the
target (index countP - 1 on sorted contents); if there is none the probe
advances to the first span.  Modelled from the spec: seek to the largest
span with start below the smallest user key, else the first span. -/
def spanSeekStart {α : Type} (cmp : α → α → Int) (spans : List (Span α)) (target : α) :
    List (Span α) :=
  spans.drop (spans.countP (fun sp => decide (cmp sp.start target < 0)) - 1)

/-- The span loop of computeOverlapWithSpans in overlapWithIterator:
skip empty spans; stop without overlap once a span starts after the
descriptor's largest; report overlap when a span's exclusive end exceeds
the descriptor's smallest user key. -/
def spanLoop {α : Type} (cmp : α → α → Int) (meta : FileMetadata α) :
    List (Span α) → Bool
  | [] => false
  | sp :: rest =>
    if sp.isEmptySpan then spanLoop cmp meta rest
    else if 0 < sstableKeyCompare cmp sp.smallestKey meta.largest then false
    else if 0 < cmp sp.endKey meta.smallest.userKey then true
    else spanLoop cmp meta rest

/-- computeOverlapWithSpans from overlapWithIterator in ingest.go. -/
def computeOverlapWithSpans {α : Type} (cmp : α → α → Int) (spans : List (Span α))
    (meta : FileMetadata α) : Bool :=
  spanLoop cmp meta (spanSeekStart cmp spans meta.smallest.userKey)

/-- overlapWithIterator from ingest.go: point check via SeekGE against
the descriptor's largest under the sentinel-aware comparator, then the
span check over the range-key iterator and then over the range-deletion
iterator (either may be absent). -/
def overlapWithIterator {α : Type} (cmp : α → α → Int) (points : List (InternalKey α))
    (rangeDels rangeKeys : Option (List (Span α))) (meta : FileMetadata α) : Bool :=
  let pointHit :=
    match seekGE cmp points meta.smallest.userKey with
    | some k => decide (sstableKeyCompare cmp k meta.largest ≤ 0)
    | none => false
  if pointHit then true
  else if (match rangeKeys with
    | some rk => computeOverlapWithSpans cmp rk meta
    | none => false) then true
  else match rangeDels with
    | some rd => computeOverlapWithSpans cmp rd meta
    | none => false

/-- A memtable as seen by ingestMemtableOverlaps: its three iterators'
contents (the range iterators may be absent) and whether closing each
present iterator reports an error. -/
structure MemTableModel (α : Type) where
  points : List (InternalKey α)
  rangeDels : Option (List (Span α))
  rangeKeys : Option (List (Span α))
  pointCloseErr : Bool
  rangeDelCloseErr : Bool
  rangeKeyCloseErr : Bool

/-- closeIters from ingestMemtableOverlaps: the combined close error of
the point iterator and of each present span iterator. -/
def closeItersErr {α : Type} (mem : MemTableModel α) : Bool :=
  mem.pointCloseErr
    || (mem.rangeDels.isSome && mem.rangeDelCloseErr)
    || (mem.rangeKeys.isSome && mem.rangeKeyCloseErr)

/-- ingestMemtableOverlaps from ingest.go: probe every descriptor against
the memtable's iterators; with no overlap found, report overlap exactly
when closing the iterators errored. -/
def ingestMemtableOverlaps {α : Type} (cmp : α → α → Int) (mem : MemTableModel α)
    (meta : List (FileMetadata α)) : Bool :=
  if meta.any (fun m =>
      overlapWithIterator cmp mem.points mem.rangeDels mem.rangeKeys m) then true
  else closeItersErr mem

/-- Claim C10: whenever closing any of the memtable's present iterators
reports an error, ingestMemtableOverlaps reports overlap, regardless of
whether any descriptor actually overlapped. -/
theorem thmC10 {α : Type} (cmp : α → α → Int) (mem : MemTableModel α)
    (meta : List (FileMetadata α)) (h : closeItersErr mem = true) :
    ingestMemtableOverlaps cmp mem meta = true := by
  simp only [ingestMemtableOverlaps]
  split <;> simp [h]

/-- A memtable holding only the point key 10, disjoint from exMetaA's
bounds, whose point iterator errors on close. -/
def exMemErr : MemTableModel Nat :=
  { points := [⟨10, 0, .set⟩], rangeDels := none, rangeKeys := none,
    pointCloseErr := true, rangeDelCloseErr := false, rangeKeyCloseErr := false }

/-- Witness for thmC10: no descriptor overlaps this memtable, yet the
close error makes the probe report overlap. -/
theorem thmC10_witness :
    closeItersErr exMemErr = true ∧
    ([exMetaA].any (fun m =>
      overlapWithIterator natCmp exMemErr.points exMemErr.rangeDels
        exMemErr.rangeKeys m) = false) ∧
    ingestMemtableOverlaps natCmp exMemErr [exMetaA] = true :=
  ⟨by decide, by decide, thmC10 natCmp exMemErr [exMetaA] (by decide)⟩

/-- A table file living in a version: its descriptor and the contents
its iterators surface. -/
structure TableFile (α : Type) where
  meta : FileMetadata α
  points : List (InternalKey α)
  rangeDels : List (Span α)
  rangeKeys : List (Span α)
  deriving DecidableEq

/-- An iterator handle for a file: absent when the file has no spans of
that kind. -/
def optOfList {β : Type} (l : List β) : Option (List β) :=
  if l.isEmpty then none else some l

/-- The per-file data-overlap probe used by the L0 scan of
ingestTargetLevel: overlapWithIterator over the file's own iterators. -/
def fileDataOverlap {α : Type} (cmp : α → α → Int) (f : TableFile α)
    (M : FileMetadata α) : Bool :=
  overlapWithIterator cmp f.points (optOfList f.rangeDels) (optOfList f.rangeKeys) M

/-- The L0 boundary filter of ingestTargetLevel: a file is probed unless
the descriptor lies entirely before or after its bounds. -/
def l0BoundaryReach {α : Type} (cmp : α → α → Int) (f : TableFile α)
    (M : FileMetadata α) : Bool :=
  !(decide (0 < sstableKeyCompare cmp M.smallest f.meta.largest)
    || decide (sstableKeyCompare cmp M.largest f.meta.smallest < 0))

/-- The L0 scan of ingestTargetLevel: some boundary-reachable L0 file has
data overlap with the descriptor. -/
def l0Overlap {α : Type} (cmp : α → α → Int) (l0 : List (TableFile α))
    (M : FileMetadata α) : Bool :=
  l0.any (fun f => l0BoundaryReach cmp f M && fileDataOverlap cmp f M)

/-- The level-wide data-overlap probe of ingestTargetLevel for levels
at or above the base level: overlapWithIterator over level-spanning
iterators.  Modelled from the spec: a level-spanning iterator over the
level's files' point keys, with parallel range-deletion and range-key
span iterators (levelIter lives outside ingest.go). -/
def levelDataOverlap {α : Type} (cmp : α → α → Int) (lvl : List (TableFile α))
    (M : FileMetadata α) : Bool :=
  overlapWithIterator cmp (lvl.bind (fun f => f.points))
    (some (lvl.bind (fun f => f.rangeDels)))
    (some (lvl.bind (fun f => f.rangeKeys))) M

/-- version.Overlaps restricted to one file.  Modelled from the spec:
boundary-interval intersection of the file's user-key range with the
descriptor's, where a sentinel largest bound makes the corresponding
endpoint exclusive (the manifest version lives outside ingest.go). -/
def fileBoundaryOverlap {α : Type} (cmp : α → α → Int) (f : FileMetadata α)
    (M : FileMetadata α) : Bool :=
  let beforeQ := decide (cmp f.largest.userKey M.smallest.userKey < 0)
    || (decide (cmp f.largest.userKey M.smallest.userKey = 0)
        && f.largest.isExclusiveSentinel)
  let afterQ := decide (0 < cmp f.smallest.userKey M.largest.userKey)
    || (decide (cmp f.smallest.userKey M.largest.userKey = 0)
        && M.largest.isExclusiveSentinel)
  !(beforeQ || afterQ)

/-- An in-progress compaction as ingestTargetLevel reads it: optional
output level and the key range its outputs span. -/
structure CompactionModel (α : Type) where
  outputLevel : Option Nat
  smallest : InternalKey α
  largest : InternalKey α
  deriving DecidableEq

/-- The compaction boundary-intersection test of ingestTargetLevel. -/
def compactionIntersects {α : Type} (cmp : α → α → Int) (c : CompactionModel α)
    (M : FileMetadata α) : Bool :=
  decide (cmp M.smallest.userKey c.largest.userKey ≤ 0)
    && decide (0 ≤ cmp M.largest.userKey c.smallest.userKey)

/-- A version: the files at each level. -/
structure Version (α : Type) where
  levels : Nat → List (TableFile α)

/-- numLevels. -/
def numLevels : Nat := 7

/-- Boundary overlap of the descriptor with any file at a level. -/
def levelBoundaryOverlaps {α : Type} (cmp : α → α → Int) (v : Version α) (L : Nat)
    (M : FileMetadata α) : Bool :=
  (v.levels L).any (fun f => fileBoundaryOverlap cmp f.meta M)

/-- Boundary overlap of the descriptor with any in-progress compaction
whose output level is L. -/
def levelCompactionOverlaps {α : Type} (cmp : α → α → Int)
    (comps : List (CompactionModel α)) (L : Nat) (M : FileMetadata α) : Bool :=
  comps.any (fun c => decide (c.outputLevel = some L) && compactionIntersects cmp c M)

/-- The per-level loop of ingestTargetLevel from the base level upward:
return the accumulated target on data overlap; skip a level (keeping the
target) on boundary or compaction overlap; otherwise adopt the level as
the new target. -/
def pickFrom {α : Type} (cmp : α → α → Int) (v : Version α)
    (comps : List (CompactionModel α)) (M : FileMetadata α) :
    List Nat → Nat → Nat
  | [], tgt => tgt
  | L :: rest, tgt =>
    if levelDataOverlap cmp (v.levels L) M then tgt
    else if levelBoundaryOverlaps cmp v L M then pickFrom cmp v comps M rest tgt
    else if levelCompactionOverlaps cmp comps L M then pickFrom cmp v comps M rest tgt
    else pickFrom cmp v comps M rest L

/-- ingestTargetLevel from ingest.go: return 0 as soon as a
boundary-reachable L0 file has data overlap; otherwise run the per-level
loop over levels baseLevel..numLevels-1 starting from target 0. -/
def ingestTargetLevel {α : Type} (cmp : α → α → Int) (v : Version α)
    (baseLevel : Nat) (comps : List (CompactionModel α)) (M : FileMetadata α) : Nat :=
  if l0Overlap cmp (v.levels 0) M then 0
  else pickFrom cmp v comps M (List.range' baseLevel (numLevels - baseLevel)) 0

/-- Soundness of the per-level loop: when it returns a level it adopted
(distinct from the incoming target), that level passed all three checks,
and no listed level at or below it had data overlap. -/
theorem pickFrom_props {α : Type} (cmp : α → α → Int) (v : Version α)
    (comps : List (CompactionModel α)) (M : FileMetadata α)
    (levels : List Nat) (tgt T : Nat) (hasc : levels.Pairwise (· < ·))
    (h : pickFrom cmp v comps M levels tgt = T) (hne : T ≠ tgt) :
    T ∈ levels
    ∧ levelDataOverlap cmp (v.levels T) M = false
    ∧ levelBoundaryOverlaps cmp v T M = false
    ∧ levelCompactionOverlaps cmp comps T M = false
    ∧ ∀ L ∈ levels, L ≤ T → levelDataOverlap cmp (v.levels L) M = false := by
  induction levels generalizing tgt with
  | nil =>
    simp only [pickFrom] at h
    exact absurd h.symm hne
  | cons L rest ih =>
    obtain ⟨hlt, hasc2⟩ := List.pairwise_cons.mp hasc
    simp only [pickFrom] at h
    cases hd : levelDataOverlap cmp (v.levels L) M with
    | true =>
      rw [if_pos hd] at h
      exact absurd h.symm hne
    | false =>
      rw [if_neg (by simp [hd])] at h
      cases hb : levelBoundaryOverlaps cmp v L M with
      | true =>
        rw [if_pos hb] at h
        obtain ⟨hmem, hdT, hbT, hcT, hall⟩ := ih tgt hasc2 h hne
        refine ⟨List.mem_cons_of_mem L hmem, hdT, hbT, hcT, ?_⟩
        intro L2 hL2 hle
        rcases List.mem_cons.mp hL2 with rfl | hL2r
        · exact hd
        · exact hall L2 hL2r hle
      | false =>
        rw [if_neg (by simp [hb])] at h
        cases hc : levelCompactionOverlaps cmp comps L M with
        | true =>
          rw [if_pos hc] at h
          obtain ⟨hmem, hdT, hbT, hcT, hall⟩ := ih tgt hasc2 h hne
          refine ⟨List.mem_cons_of_mem L hmem, hdT, hbT, hcT, ?_⟩
          intro L2 hL2 hle
          rcases List.mem_cons.mp hL2 with rfl | hL2r
          · exact hd
          · exact hall L2 hL2r hle
        | false =>
          rw [if_neg (by simp [hc])] at h
          by_cases hTL : T = L
          · subst hTL
            refine ⟨List.mem_cons_self _ _, hd, hb, hc, ?_⟩
            intro L2 hL2 hle
            rcases List.mem_cons.mp hL2 with rfl | hL2r
            · exact hd
            · have := hlt L2 hL2r
              omega
          · obtain ⟨hmem, hdT, hbT, hcT, hall⟩ := ih L hasc2 h hTL
            refine ⟨List.mem_cons_of_mem L hmem, hdT, hbT, hcT, ?_⟩
            intro L2 hL2 hle
            rcases List.mem_cons.mp hL2 with rfl | hL2r
            · exact hd
            · exact hall L2 hL2r hle

/-- Claim C2 (amended to target levels above zero; a return of 0 may
itself be caused by L0 data overlap, which L0 tolerates): when
ingestTargetLevel returns T > 0, no boundary-reachable L0 file has data
overlap under the probe, no probed level up to T has data overlap under
the level probe, no file at level T has boundary overlap with the
descriptor, and no in-progress compaction with output level T has a
boundary interval intersecting the descriptor's bounds. -/
theorem thmC2 {α : Type} (cmp : α → α → Int) (v : Version α) (baseLevel : Nat)
    (comps : List (CompactionModel α)) (M : FileMetadata α) (T : Nat)
    (hT : ingestTargetLevel cmp v baseLevel comps M = T) (hpos : 0 < T) :
    (∀ f ∈ v.levels 0, l0BoundaryReach cmp f M = true →
      fileDataOverlap cmp f M = false)
    ∧ (∀ L, baseLevel ≤ L → L ≤ T → levelDataOverlap cmp (v.levels L) M = false)
    ∧ (∀ f ∈ v.levels T, fileBoundaryOverlap cmp f.meta M = false)
    ∧ (∀ c ∈ comps, c.outputLevel = some T → compactionIntersects cmp c M = false) := by
  simp only [ingestTargetLevel] at hT
  cases h0 : l0Overlap cmp (v.levels 0) M with
  | true =>
    rw [if_pos h0] at hT
    omega
  | false =>
    rw [if_neg (by simp [h0])] at hT
    have hne : T ≠ 0 := by omega
    obtain ⟨hmem, hdT, hbT, hcT, hall⟩ :=
      pickFrom_props cmp v comps M (List.range' baseLevel (numLevels - baseLevel))
        0 T (List.pairwise_lt_range' ..) hT hne
    have hTrange := List.mem_range'_1.mp hmem
    refine ⟨?_, ?_, ?_, ?_⟩
    · intro f hf hreach
      simp only [l0Overlap, List.any_eq_false] at h0
      have hfa := h0 f hf
      cases hdt : fileDataOverlap cmp f M with
      | false => rfl
      | true => rw [hreach, hdt] at hfa; simp at hfa
    · intro L hbase hle
      have hLmem : L ∈ List.range' baseLevel (numLevels - baseLevel) := by
        rw [List.mem_range'_1]
        exact ⟨hbase, by omega⟩
      exact hall L hLmem hle
    · intro f hf
      simp only [levelBoundaryOverlaps, List.any_eq_false] at hbT
      have := hbT f hf
      cases hfb : fileBoundaryOverlap cmp f.meta M with
      | false => rfl
      | true => rw [hfb] at this; simp at this
    · intro c hc hout
      simp only [levelCompactionOverlaps, List.any_eq_false] at hcT
      have := hcT c hc
      cases hci : compactionIntersects cmp c M with
      | false => rfl
      | true => rw [hci, hout] at this; simp at this

/-- A descriptor over the user-key range 4..6, used to probe placement. -/
def exMIngest : FileMetadata Nat :=
  { fileNum := 9, size := 1,
    smallest := ⟨4, 0, .set⟩, largest := ⟨6, 0, .set⟩,
    hasPointKeys := true,
    smallestPointKey := ⟨4, 0, .set⟩, largestPointKey := ⟨6, 0, .set⟩,
    hasRangeKeys := false,
    smallestRangeKey := ⟨0, 0, .del⟩, largestRangeKey := ⟨0, 0, .del⟩,
    smallestSeqNum := 0, largestSeqNum := 0 }

/-- An L0 file holding the single point key 5, inside exMIngest's
bounds. -/
def exF0 : TableFile Nat :=
  { meta :=
    { fileNum := 7, size := 1,
      smallest := ⟨5, 20, .set⟩, largest := ⟨5, 20, .set⟩,
      hasPointKeys := true,
      smallestPointKey := ⟨5, 20, .set⟩, largestPointKey := ⟨5, 20, .set⟩,
      hasRangeKeys := false,
      smallestRangeKey := ⟨0, 0, .del⟩, largestRangeKey := ⟨0, 0, .del⟩,
      smallestSeqNum := 20, largestSeqNum := 20 },
    points := [⟨5, 20, .set⟩], rangeDels := [], rangeKeys := [] }

/-- A version whose only file is exF0, at level 0. -/
def vL0Only : Version Nat :=
  { levels := fun L => if L = 0 then [exF0] else [] }

/-- The empty version. -/
def vEmpty : Version Nat :=
  { levels := fun _ => [] }

/-- Counterexample to claim C2 as stated: with a single L0 file whose
point key 5 lies inside the descriptor's bounds 4..6, the picker returns
level 0, yet that boundary-reachable file at level 0 <= T has data
overlap under the probe — so "no file at any probed level <= T has data
overlap" fails at T = 0. -/
theorem thmC2_cex :
    ingestTargetLevel natCmp vL0Only 1 [] exMIngest = 0 ∧
    exF0 ∈ vL0Only.levels 0 ∧
    l0BoundaryReach natCmp exF0 exMIngest = true ∧
    fileDataOverlap natCmp exF0 exMIngest = true := by
  refine ⟨by decide, by decide, by decide, by decide⟩

/-- Witness for thmC2: on the empty version with base level 1 the picker
returns level 6, and the soundness conclusions hold there. -/
theorem thmC2_witness :
    ingestTargetLevel natCmp vEmpty 1 [] exMIngest = 6 ∧ 0 < 6 ∧
    ((∀ f ∈ vEmpty.levels 0, l0BoundaryReach natCmp f exMIngest = true →
        fileDataOverlap natCmp f exMIngest = false)
      ∧ (∀ L, 1 ≤ L → L ≤ 6 →
          levelDataOverlap natCmp (vEmpty.levels L) exMIngest = false)
      ∧ (∀ f ∈ vEmpty.levels 6, fileBoundaryOverlap natCmp f.meta exMIngest = false)
      ∧ (∀ c ∈ ([] : List (CompactionModel Nat)), c.outputLevel = some 6 →
          compactionIntersects natCmp c exMIngest = false)) :=
  ⟨by decide, by decide,
    thmC2 natCmp vEmpty 1 [] exMIngest 6 (by decide) (by decide)⟩

/-- An external sstable as the loader sees it: the outcome of opening
it, its table format, byte size, and the contents of its three
iterators. -/
structure SSTFileModel (α : Type) where
  openErr : Option IngestErr
  tableFormat : Nat
  size : Nat
  points : List (InternalKey α)
  rangeDels : List (Span α)
  rangeKeys : List (Span α)
  deriving DecidableEq

/-- ingestValidateKey from ingest.go: reject kind Invalid, then reject a
non-zero sequence number; both are corruption. -/
def validateKeyE {α : Type} (k : InternalKey α) : Except IngestErr Unit :=
  if k.kind = KeyKind.invalid then .error .corruption
  else if k.seqNum ≠ 0 then .error .corruption
  else .ok ()

/-- The zero-value internal key (Go zero value: empty user key, zero
trailer). -/
def emptyKey {α : Type} [Inhabited α] : InternalKey α := ⟨default, 0, .del⟩

/-- A fresh fileMetadata with only file number, size and zeroed bounds. -/
def emptyMeta {α : Type} [Inhabited α] (fileNum size : Nat) : FileMetadata α :=
  { fileNum := fileNum, size := size,
    smallest := emptyKey, largest := emptyKey,
    hasPointKeys := false, smallestPointKey := emptyKey, largestPointKey := emptyKey,
    hasRangeKeys := false, smallestRangeKey := emptyKey, largestRangeKey := emptyKey,
    smallestSeqNum := 0, largestSeqNum := 0 }

/-- Recompute the overall bounds as the comparator-min/max of the
per-category bounds.  Modelled from the spec: when both point and range
keys exist, the overall bounds are the comparator-min/max of the
per-category bounds (manifest extendOverallBounds lives outside
ingest.go). -/
def recomputeOverall {α : Type} (cmp : α → α → Int) (m : FileMetadata α) :
    FileMetadata α :=
  match (if m.hasPointKeys then [(m.smallestPointKey, m.largestPointKey)] else []) ++
      (if m.hasRangeKeys then [(m.smallestRangeKey, m.largestRangeKey)] else []) with
  | [] => m
  | c :: rest =>
    { m with
      smallest := rest.foldl
        (fun acc p => if internalCompare cmp p.1 acc < 0 then p.1 else acc) c.1,
      largest := rest.foldl
        (fun acc p => if 0 < internalCompare cmp p.2 acc then p.2 else acc) c.2 }

/-- fileMetadata.ExtendPointKeyBounds.  Modelled from the spec: install
or widen the point-key bounds with the given pair, then refresh the
overall bounds (manifest package, not part of ingest.go). -/
def extendPointKeyBounds {α : Type} (cmp : α → α → Int) (m : FileMetadata α)
    (s l : InternalKey α) : FileMetadata α :=
  recomputeOverall cmp
    (if !m.hasPointKeys then
      { m with smallestPointKey := s, largestPointKey := l, hasPointKeys := true }
    else
      { m with
        smallestPointKey :=
          if internalCompare cmp s m.smallestPointKey < 0 then s
          else m.smallestPointKey,
        largestPointKey :=
          if 0 < internalCompare cmp l m.largestPointKey then l
          else m.largestPointKey })

/-- fileMetadata.ExtendRangeKeyBounds.  Modelled from the spec, as for
the point-key variant. -/
def extendRangeKeyBounds {α : Type} (cmp : α → α → Int) (m : FileMetadata α)
    (s l : InternalKey α) : FileMetadata α :=
  recomputeOverall cmp
    (if !m.hasRangeKeys then
      { m with smallestRangeKey := s, largestRangeKey := l, hasRangeKeys := true }
    else
      { m with
        smallestRangeKey :=
          if internalCompare cmp s m.smallestRangeKey < 0 then s
          else m.smallestRangeKey,
        largestRangeKey :=
          if 0 < internalCompare cmp l m.largestRangeKey then l
          else m.largestRangeKey })

/-- The point-key phase of ingestLoad1: validate the first and last
point keys and extend the point-key bounds with them. -/
def load1Points {α : Type} (cmp : α → α → Int) (m0 : FileMetadata α)
    (points : List (InternalKey α)) : Except IngestErr (FileMetadata α) :=
  match points.head?, points.getLast? with
  | some first, some last =>
    match validateKeyE first with
    | .error e => .error e
    | .ok _ =>
      match validateKeyE last with
      | .error e => .error e
      | .ok _ => .ok (extendPointKeyBounds cmp m0 first last)
  | _, _ => .ok m0

/-- The range-deletion phase of ingestLoad1: validate the start keys of
the first and last spans and extend the point-key bounds from the first
span's start to the last span's sentinel end. -/
def load1RangeDels {α : Type} (cmp : α → α → Int) (m1 : FileMetadata α)
    (spans : List (Span α)) : Except IngestErr (FileMetadata α) :=
  match spans.head?, spans.getLast? with
  | some s1, some s2 =>
    match validateKeyE s1.smallestKey with
    | .error e => .error e
    | .ok _ =>
      match validateKeyE s2.smallestKey with
      | .error e => .error e
      | .ok _ => .ok (extendPointKeyBounds cmp m1 s1.smallestKey s2.largestKey)
  | _, _ => .ok m1

/-- The range-key phase of ingestLoad1: as the range-deletion phase but
extending the range-key bounds. -/
def load1RangeKeys {α : Type} (cmp : α → α → Int) (m2 : FileMetadata α)
    (spans : List (Span α)) : Except IngestErr (FileMetadata α) :=
  match spans.head?, spans.getLast? with
  | some s1, some s2 =>
    match validateKeyE s1.smallestKey with
    | .error e => .error e
    | .ok _ =>
      match validateKeyE s2.smallestKey with
      | .error e => .error e
      | .ok _ => .ok (extendRangeKeyBounds cmp m2 s1.smallestKey s2.largestKey)
  | _, _ => .ok m2

/-- ingestLoad1 from ingest.go: open, check the table format against the
range permitted by the format major version, derive bounds from point
keys, range deletions and range keys (validating boundary keys), return
none for a file with neither point nor range keys, and cross-validate
the final bounds. -/
def ingestLoad1 {α : Type} [Inhabited α] (cmp : α → α → Int) (minF maxF : Nat)
    (f : SSTFileModel α) (fileNum : Nat) : Except IngestErr (Option (FileMetadata α)) :=
  match f.openErr with
  | some e => .error e
  | none =>
    if f.tableFormat < minF || maxF < f.tableFormat then .error .formatMismatch
    else
      match load1Points cmp (emptyMeta fileNum f.size) f.points with
      | .error e => .error e
      | .ok m1 =>
        match load1RangeDels cmp m1 f.rangeDels with
        | .error e => .error e
        | .ok m2 =>
          match load1RangeKeys cmp m2 f.rangeKeys with
          | .error e => .error e
          | .ok m3 =>
            if !m3.hasPointKeys && !m3.hasRangeKeys then .ok none
            else if validateMeta cmp m3 then .ok (some m3)
            else .error .corruption

/-- ingestLoad from ingest.go: load each path in order, stopping at the
first failure, and drop files reported empty from both the descriptor
and the path list. -/
def ingestLoad {α : Type} [Inhabited α] (cmp : α → α → Int) (minF maxF : Nat) :
    List (SSTFileModel α) → List Nat → List Nat →
      Except IngestErr (List (FileMetadata α) × List Nat)
  | f :: fs, p :: ps, fn :: fns =>
    match ingestLoad1 cmp minF maxF f fn with
    | .error e => .error e
    | .ok r =>
      match ingestLoad cmp minF maxF fs ps fns with
      | .error e => .error e
      | .ok (ms, qs) =>
        match r with
        | some m => .ok (m :: ms, p :: qs)
        | none => .ok (ms, qs)
  | _, _, _ => .ok ([], [])

/-- Whether a file model carries any point or range keys. -/
def fileHasContent {α : Type} (f : SSTFileModel α) : Bool :=
  !f.points.isEmpty || !f.rangeDels.isEmpty || !f.rangeKeys.isEmpty

@[simp] theorem recomputeOverall_hasPointKeys {α : Type} (cmp : α → α → Int)
    (m : FileMetadata α) : (recomputeOverall cmp m).hasPointKeys = m.hasPointKeys := by
  simp only [recomputeOverall]
  split <;> rfl

@[simp] theorem recomputeOverall_hasRangeKeys {α : Type} (cmp : α → α → Int)
    (m : FileMetadata α) : (recomputeOverall cmp m).hasRangeKeys = m.hasRangeKeys := by
  simp only [recomputeOverall]
  split <;> rfl

@[simp] theorem recomputeOverall_fileNum {α : Type} (cmp : α → α → Int)
    (m : FileMetadata α) : (recomputeOverall cmp m).fileNum = m.fileNum := by
  simp only [recomputeOverall]
  split <;> rfl

@[simp] theorem extendPointKeyBounds_hasPointKeys {α : Type} (cmp : α → α → Int)
    (m : FileMetadata α) (s l : InternalKey α) :
    (extendPointKeyBounds cmp m s l).hasPointKeys = true := by
  simp only [extendPointKeyBounds, recomputeOverall_hasPointKeys]
  by_cases hp : m.hasPointKeys <;> simp [hp]

@[simp] theorem extendPointKeyBounds_hasRangeKeys {α : Type} (cmp : α → α → Int)
    (m : FileMetadata α) (s l : InternalKey α) :
    (extendPointKeyBounds cmp m s l).hasRangeKeys = m.hasRangeKeys := by
  simp only [extendPointKeyBounds, recomputeOverall_hasRangeKeys]
  by_cases hp : m.hasPointKeys <;> simp [hp]

@[simp] theorem extendPointKeyBounds_fileNum {α : Type} (cmp : α → α → Int)
    (m : FileMetadata α) (s l : InternalKey α) :
    (extendPointKeyBounds cmp m s l).fileNum = m.fileNum := by
  simp only [extendPointKeyBounds, recomputeOverall_fileNum]
  by_cases hp : m.hasPointKeys <;> simp [hp]

@[simp] theorem extendRangeKeyBounds_hasRangeKeys {α : Type} (cmp : α → α → Int)
    (m : FileMetadata α) (s l : InternalKey α) :
    (extendRangeKeyBounds cmp m s l).hasRangeKeys = true := by
  simp only [extendRangeKeyBounds, recomputeOverall_hasRangeKeys]
  by_cases hp : m.hasRangeKeys <;> simp [hp]

@[simp] theorem extendRangeKeyBounds_hasPointKeys {α : Type} (cmp : α → α → Int)
    (m : FileMetadata α) (s l : InternalKey α) :
    (extendRangeKeyBounds cmp m s l).hasPointKeys = m.hasPointKeys := by
  simp only [extendRangeKeyBounds, recomputeOverall_hasPointKeys]
  by_cases hp : m.hasRangeKeys <;> simp [hp]

@[simp] theorem extendRangeKeyBounds_fileNum {α : Type} (cmp : α → α → Int)
    (m : FileMetadata α) (s l : InternalKey α) :
    (extendRangeKeyBounds cmp m s l).fileNum = m.fileNum := by
  simp only [extendRangeKeyBounds, recomputeOverall_fileNum]
  by_cases hp : m.hasRangeKeys <;> simp [hp]

theorem load1Points_ok {α : Type} (cmp : α → α → Int) (m0 : FileMetadata α)
    (ps : List (InternalKey α)) (m1 : FileMetadata α)
    (h : load1Points cmp m0 ps = .ok m1) :
    m1.hasPointKeys = (!ps.isEmpty || m0.hasPointKeys)
    ∧ m1.hasRangeKeys = m0.hasRangeKeys ∧ m1.fileNum = m0.fileNum := by
  cases ps with
  | nil =>
    simp only [load1Points, List.head?_nil] at h
    simp only [Except.ok.injEq] at h
    subst h
    simp
  | cons a as =>
    obtain ⟨last, hl⟩ : ∃ last, (a :: as).getLast? = some last := by
      cases hx : (a :: as).getLast? with
      | none => rw [List.getLast?_eq_none_iff] at hx; simp at hx
      | some b => exact ⟨b, rfl⟩
    simp only [load1Points, List.head?_cons, hl] at h
    cases h1 : validateKeyE a with
    | error e => rw [h1] at h; simp at h
    | ok u =>
      rw [h1] at h
      cases h2 : validateKeyE last with
      | error e => rw [h2] at h; simp at h
      | ok u2 =>
        rw [h2] at h
        simp only [Except.ok.injEq] at h
        subst h
        simp

theorem load1RangeDels_ok {α : Type} (cmp : α → α → Int) (m1 : FileMetadata α)
    (sp : List (Span α)) (m2 : FileMetadata α)
    (h : load1RangeDels cmp m1 sp = .ok m2) :
    m2.hasPointKeys = (!sp.isEmpty || m1.hasPointKeys)
    ∧ m2.hasRangeKeys = m1.hasRangeKeys ∧ m2.fileNum = m1.fileNum := by
  cases sp with
  | nil =>
    simp only [load1RangeDels, List.head?_nil] at h
    simp only [Except.ok.injEq] at h
    subst h
    simp
  | cons a as =>
    obtain ⟨last, hl⟩ : ∃ last, (a :: as).getLast? = some last := by
      cases hx : (a :: as).getLast? with
      | none => rw [List.getLast?_eq_none_iff] at hx; simp at hx
      | some b => exact ⟨b, rfl⟩
    simp only [load1RangeDels, List.head?_cons, hl] at h
    cases h1 : validateKeyE a.smallestKey with
    | error e => rw [h1] at h; simp at h
    | ok u =>
      rw [h1] at h
      cases h2 : validateKeyE last.smallestKey with
      | error e => rw [h2] at h; simp at h
      | ok u2 =>
        rw [h2] at h
        simp only [Except.ok.injEq] at h
        subst h
        simp

theorem load1RangeKeys_ok {α : Type} (cmp : α → α → Int) (m2 : FileMetadata α)
    (sp : List (Span α)) (m3 : FileMetadata α)
    (h : load1RangeKeys cmp m2 sp = .ok m3) :
    m3.hasRangeKeys = (!sp.isEmpty || m2.hasRangeKeys)
    ∧ m3.hasPointKeys = m2.hasPointKeys ∧ m3.fileNum = m2.fileNum := by
  cases sp with
  | nil =>
    simp only [load1RangeKeys, List.head?_nil] at h
    simp only [Except.ok.injEq] at h
    subst h
    simp
  | cons a as =>
    obtain ⟨last, hl⟩ : ∃ last, (a :: as).getLast? = some last := by
      cases hx : (a :: as).getLast? with
      | none => rw [List.getLast?_eq_none_iff] at hx; simp at hx
      | some b => exact ⟨b, rfl⟩
    simp only [load1RangeKeys, List.head?_cons, hl] at h
    cases h1 : validateKeyE a.smallestKey with
    | error e => rw [h1] at h; simp at h
    | ok u =>
      rw [h1] at h
      cases h2 : validateKeyE last.smallestKey with
      | error e => rw [h2] at h; simp at h
      | ok u2 =>
        rw [h2] at h
        simp only [Except.ok.injEq] at h
        subst h
        simp

theorem ingestLoad1_ok_none {α : Type} [Inhabited α] (cmp : α → α → Int)
    (minF maxF : Nat) (f : SSTFileModel α) (fn : Nat)
    (h : ingestLoad1 cmp minF maxF f fn = .ok none) :
    fileHasContent f = false := by
  simp only [ingestLoad1] at h
  cases ho : f.openErr with
  | some e => simp [ho] at h
  | none =>
    cases hfmt : (f.tableFormat < minF || maxF < f.tableFormat) with
    | true => simp [ho, hfmt] at h
    | false =>
      cases hp : load1Points cmp (emptyMeta fn f.size) f.points with
      | error e => simp [ho, hfmt, hp] at h
      | ok m1 =>
        cases hd : load1RangeDels cmp m1 f.rangeDels with
        | error e => simp [ho, hfmt, hp, hd] at h
        | ok m2 =>
          cases hk : load1RangeKeys cmp m2 f.rangeKeys with
          | error e => simp [ho, hfmt, hp, hd, hk] at h
          | ok m3 =>
            obtain ⟨hp1, hp2, _⟩ := load1Points_ok cmp _ _ _ hp
            obtain ⟨hd1, hd2, _⟩ := load1RangeDels_ok cmp _ _ _ hd
            obtain ⟨hk1, hk2, _⟩ := load1RangeKeys_ok cmp _ _ _ hk
            cases hbp : m3.hasPointKeys with
            | true =>
              cases hv : validateMeta cmp m3 with
              | true => simp [ho, hfmt, hp, hd, hk, hbp, hv] at h
              | false => simp [ho, hfmt, hp, hd, hk, hbp, hv] at h
            | false =>
              cases hbr : m3.hasRangeKeys with
              | true =>
                cases hv : validateMeta cmp m3 with
                | true => simp [ho, hfmt, hp, hd, hk, hbp, hbr, hv] at h
                | false => simp [ho, hfmt, hp, hd, hk, hbp, hbr, hv] at h
              | false =>
                rw [hk2, hd1, hp1] at hbp
                rw [hk1, hd2, hp2] at hbr
                simp only [emptyMeta, Bool.or_eq_false_iff] at hbp hbr
                simp [fileHasContent, hbp.1, hbp.2.1, hbr.1]

theorem ingestLoad1_ok_some {α : Type} [Inhabited α] (cmp : α → α → Int)
    (minF maxF : Nat) (f : SSTFileModel α) (fn : Nat) (m : FileMetadata α)
    (h : ingestLoad1 cmp minF maxF f fn = .ok (some m)) :
    fileHasContent f = true ∧ m.fileNum = fn := by
  simp only [ingestLoad1] at h
  cases ho : f.openErr with
  | some e => simp [ho] at h
  | none =>
    cases hfmt : (f.tableFormat < minF || maxF < f.tableFormat) with
    | true => simp [ho, hfmt] at h
    | false =>
      cases hp : load1Points cmp (emptyMeta fn f.size) f.points with
      | error e => simp [ho, hfmt, hp] at h
      | ok m1 =>
        cases hd : load1RangeDels cmp m1 f.rangeDels with
        | error e => simp [ho, hfmt, hp, hd] at h
        | ok m2 =>
          cases hk : load1RangeKeys cmp m2 f.rangeKeys with
          | error e => simp [ho, hfmt, hp, hd, hk] at h
          | ok m3 =>
            obtain ⟨hp1, hp2, hp3⟩ := load1Points_ok cmp _ _ _ hp
            obtain ⟨hd1, hd2, hd3⟩ := load1RangeDels_ok cmp _ _ _ hd
            obtain ⟨hk1, hk2, hk3⟩ := load1RangeKeys_ok cmp _ _ _ hk
            have hcontent : (m3.hasPointKeys || m3.hasRangeKeys) = true →
                fileHasContent f = true := by
              intro hor
              rw [hk2, hd1, hp1, hk1, hd2, hp2] at hor
              simp only [emptyMeta, Bool.or_eq_true] at hor
              simp only [fileHasContent, Bool.or_eq_true]
              tauto
            cases hbp : m3.hasPointKeys with
            | true =>
              cases hv : validateMeta cmp m3 with
              | false => simp [ho, hfmt, hp, hd, hk, hbp, hv] at h
              | true =>
                simp only [ho, hfmt, hp, hd, hk, hbp, hv] at h
                simp at h
                subst h
                exact ⟨hcontent (by simp [hbp]), by rw [hk3, hd3, hp3]; rfl⟩
            | false =>
              cases hbr : m3.hasRangeKeys with
              | false => simp [ho, hfmt, hp, hd, hk, hbp, hbr] at h
              | true =>
                cases hv : validateMeta cmp m3 with
                | false => simp [ho, hfmt, hp, hd, hk, hbp, hbr, hv] at h
                | true =>
                  simp only [ho, hfmt, hp, hd, hk, hbp, hbr, hv] at h
                  simp at h
                  subst h
                  exact ⟨hcontent (by simp [hbr]), by rw [hk3, hd3, hp3]; rfl⟩

/-- Structure of a successful ingestLoad: one kept descriptor per
content-bearing file, path list in lockstep, and every kept descriptor's
file number traceable to a content-bearing input slot. -/
theorem ingestLoad_ok {α : Type} [Inhabited α] (cmp : α → α → Int) (minF maxF : Nat)
    (files : List (SSTFileModel α)) (paths fns : List Nat)
    (ms : List (FileMetadata α)) (qs : List Nat)
    (h1 : paths.length = files.length) (h2 : fns.length = files.length)
    (h : ingestLoad cmp minF maxF files paths fns = .ok (ms, qs)) :
    ms.length = files.countP fileHasContent ∧ qs.length = ms.length ∧
    (∀ m ∈ ms, ∃ (i : Nat) (hi : i < files.length) (hf : i < fns.length),
      m.fileNum = fns.get ⟨i, hf⟩ ∧ fileHasContent (files.get ⟨i, hi⟩) = true) := by
  induction files generalizing paths fns ms qs with
  | nil =>
    simp only [ingestLoad] at h
    simp only [Except.ok.injEq, Prod.mk.injEq] at h
    obtain ⟨rfl, rfl⟩ := h.symm
    simp
  | cons f fs ih =>
    cases paths with
    | nil => simp at h1
    | cons p ps =>
      cases fns with
      | nil => simp at h2
      | cons fn fns2 =>
        simp only [ingestLoad] at h
        cases hr : ingestLoad1 cmp minF maxF f fn with
        | error e => simp [hr] at h
        | ok r =>
          cases hrec : ingestLoad cmp minF maxF fs ps fns2 with
          | error e => simp [hr, hrec] at h
          | ok pr =>
            obtain ⟨ms2, qs2⟩ := pr
            obtain ⟨hlenA, hlenB, hmem⟩ :=
              ih ps fns2 ms2 qs2 (by simpa using h1) (by simpa using h2) hrec
            cases r with
            | none =>
              simp only [hr, hrec] at h
              simp only [Except.ok.injEq, Prod.mk.injEq] at h
              obtain ⟨rfl, rfl⟩ := h.symm
              have hc := ingestLoad1_ok_none cmp minF maxF f fn hr
              refine ⟨?_, hlenB, ?_⟩
              · rw [List.countP_cons, hc]
                simpa using hlenA
              · intro m hm
                obtain ⟨i, hi, hf, hnum, hcont⟩ := hmem m hm
                exact ⟨i + 1, by simpa using Nat.succ_lt_succ hi,
                  by simpa using Nat.succ_lt_succ hf,
                  by simpa using hnum, by simpa using hcont⟩
            | some m0 =>
              simp only [hr, hrec] at h
              simp only [Except.ok.injEq, Prod.mk.injEq] at h
              obtain ⟨rfl, rfl⟩ := h.symm
              obtain ⟨hc, hnum0⟩ := ingestLoad1_ok_some cmp minF maxF f fn m0 hr
              refine ⟨?_, by simpa using hlenB, ?_⟩
              · rw [List.countP_cons, hc]
                simpa using hlenA
              · intro m hm
                rcases List.mem_cons.mp hm with rfl | hm2
                · exact ⟨0, by simp, by simp, by simpa using hnum0, by simpa using hc⟩
                · obtain ⟨i, hi, hf, hnum, hcont⟩ := hmem m hm2
                  exact ⟨i + 1, by simpa using Nat.succ_lt_succ hi,
                    by simpa using Nat.succ_lt_succ hf,
                    by simpa using hnum, by simpa using hcont⟩

/-- The events ingestion emits: TableCreated per linked file and the
terminal TableIngested. -/
inductive IngestEvent where
  | tableCreated (jobID : Nat) (fileNum : Nat)
  | tableIngested (jobID : Nat) (globalSeqNum : Nat) (err : Option IngestErr)
      (flushableFlag : Bool) (tables : List (Nat × Int))
  deriving DecidableEq, Repr

/-- Whether an event is the terminal TableIngested event. -/
def IngestEvent.isTableIngested : IngestEvent → Bool
  | .tableIngested .. => true
  | _ => false

/-- The error payload of a TableIngested event (none otherwise). -/
def IngestEvent.ingestedErr : IngestEvent → Option IngestErr
  | .tableIngested _ _ e _ _ => e
  | _ => none

/-- ingestCleanup from ingest.go: remove every object, returning the
first removal error (the removals themselves all run). -/
def ingestCleanup (removeFail : Nat → Option IngestErr) (fileNums : List Nat) :
    Option IngestErr :=
  (fileNums.filterMap removeFail).head?

/-- Observable outcome of ingestLink: emitted TableCreated events,
objects installed, objects removed by the failure cleanup, the logged
(not propagated) cleanup error, and the returned error. -/
structure LinkOutcome where
  events : List IngestEvent
  installed : List Nat
  removed : List Nat
  cleanupLogged : Option IngestErr
  linkErr : Option IngestErr
  deriving DecidableEq, Repr

/-- The loop of ingestLink: link each (path, descriptor) pair in order,
emitting TableCreated per success; on the first failure remove the
objects installed so far (logging, not returning, any cleanup error) and
return the link error. -/
def ingestLinkAux {α : Type} (jobID : Nat) (linkFail removeFail : Nat → Option IngestErr) :
    Nat → List Nat → List (FileMetadata α) → List IngestEvent → List Nat → LinkOutcome
  | i, _ :: ps, mt :: msr, evAcc, insAcc =>
    match linkFail i with
    | some e =>
      { events := evAcc, installed := insAcc, removed := insAcc,
        cleanupLogged := ingestCleanup removeFail insAcc, linkErr := some e }
    | none =>
      ingestLinkAux jobID linkFail removeFail (i + 1) ps msr
        (evAcc ++ [.tableCreated jobID mt.fileNum]) (insAcc ++ [mt.fileNum])
  | _, _, _, evAcc, insAcc =>
    { events := evAcc, installed := insAcc, removed := [],
      cleanupLogged := none, linkErr := none }

/-- ingestLink from ingest.go. -/
def ingestLink {α : Type} (jobID : Nat) (linkFail removeFail : Nat → Option IngestErr)
    (paths : List Nat) (metas : List (FileMetadata α)) : LinkOutcome :=
  ingestLinkAux jobID linkFail removeFail 0 paths metas [] []

theorem ingestLinkAux_fail {α : Type} (jobID : Nat)
    (linkFail removeFail : Nat → Option IngestErr) (k : Nat) :
    ∀ (paths : List Nat) (metas : List (FileMetadata α)) (i0 : Nat)
      (evAcc : List IngestEvent) (insAcc : List Nat) (e : IngestErr),
    paths.length = metas.length → k < metas.length →
    linkFail (i0 + k) = some e → (∀ j, j < k → linkFail (i0 + j) = none) →
    ingestLinkAux jobID linkFail removeFail i0 paths metas evAcc insAcc =
      { events := evAcc ++
          (metas.take k).map (fun m => .tableCreated jobID m.fileNum),
        installed := insAcc ++ (metas.take k).map (fun m => m.fileNum),
        removed := insAcc ++ (metas.take k).map (fun m => m.fileNum),
        cleanupLogged := ingestCleanup removeFail
          (insAcc ++ (metas.take k).map (fun m => m.fileNum)),
        linkErr := some e } := by
  induction k with
  | zero =>
    intro paths metas i0 evAcc insAcc e hlen hk hfail hprev
    cases metas with
    | nil => simp at hk
    | cons mt msr =>
      cases paths with
      | nil => simp at hlen
      | cons p ps =>
        simp only [Nat.add_zero] at hfail
        simp [ingestLinkAux, hfail]
  | succ k ih =>
    intro paths metas i0 evAcc insAcc e hlen hk hfail hprev
    cases metas with
    | nil => simp at hk
    | cons mt msr =>
      cases paths with
      | nil => simp at hlen
      | cons p ps =>
        have h0 : linkFail i0 = none := by
          have := hprev 0 (Nat.succ_pos k)
          simpa using this
        have hfail2 : linkFail (i0 + 1 + k) = some e := by
          rw [show i0 + 1 + k = i0 + (k + 1) by omega]
          exact hfail
        have hprev2 : ∀ j, j < k → linkFail (i0 + 1 + j) = none := by
          intro j hj
          rw [show i0 + 1 + j = i0 + (j + 1) by omega]
          exact hprev (j + 1) (by omega)
        have hrec := ih ps msr (i0 + 1)
          (evAcc ++ [.tableCreated jobID mt.fileNum]) (insAcc ++ [mt.fileNum]) e
          (by simpa using hlen) (by simpa using hk) hfail2 hprev2
        simp only [ingestLinkAux, h0]
        rw [hrec]
        simp [List.take_succ_cons]

theorem ingestLinkAux_ok {α : Type} (jobID : Nat)
    (linkFail removeFail : Nat → Option IngestErr)
    (metas : List (FileMetadata α)) :
    ∀ (paths : List Nat) (i0 : Nat) (evAcc : List IngestEvent) (insAcc : List Nat),
    paths.length = metas.length →
    (∀ j, j < metas.length → linkFail (i0 + j) = none) →
    ingestLinkAux jobID linkFail removeFail i0 paths metas evAcc insAcc =
      { events := evAcc ++ metas.map (fun m => .tableCreated jobID m.fileNum),
        installed := insAcc ++ metas.map (fun m => m.fileNum),
        removed := [], cleanupLogged := none, linkErr := none } := by
  induction metas with
  | nil =>
    intro paths i0 evAcc insAcc hlen hall
    cases paths with
    | nil => simp [ingestLinkAux]
    | cons p ps => simp at hlen
  | cons mt msr ih =>
    intro paths i0 evAcc insAcc hlen hall
    cases paths with
    | nil => simp at hlen
    | cons p ps =>
      have h0 : linkFail i0 = none := by
        have := hall 0 (by simp)
        simpa using this
      have hall2 : ∀ j, j < msr.length → linkFail (i0 + 1 + j) = none := by
        intro j hj
        rw [show i0 + 1 + j = i0 + (j + 1) by omega]
        exact hall (j + 1) (by simpa using Nat.succ_lt_succ hj)
      have hrec := ih ps (i0 + 1)
        (evAcc ++ [.tableCreated jobID mt.fileNum]) (insAcc ++ [mt.fileNum])
        (by simpa using hlen) hall2
      simp only [ingestLinkAux, h0]
      rw [hrec]
      simp

/-- Claim C9: if linking fails first at index i, ingestLink removes
exactly the objects installed at indices below i, returns the original
link error (the logged cleanup error is never propagated, whatever the
removal outcomes), and emits TableCreated only for those earlier
indices; with no failure it removes nothing and returns no error. -/
theorem thmC9 {α : Type} (jobID : Nat) (linkFail removeFail : Nat → Option IngestErr)
    (paths : List Nat) (metas : List (FileMetadata α))
    (hlen : paths.length = metas.length) :
    (∀ (i : Nat) (e : IngestErr), i < metas.length → linkFail i = some e →
      (∀ j, j < i → linkFail j = none) →
      (ingestLink jobID linkFail removeFail paths metas).linkErr = some e
      ∧ (ingestLink jobID linkFail removeFail paths metas).removed =
          (metas.take i).map (fun m => m.fileNum)
      ∧ (ingestLink jobID linkFail removeFail paths metas).events =
          (metas.take i).map (fun m => .tableCreated jobID m.fileNum))
    ∧ ((∀ j, j < metas.length → linkFail j = none) →
      (ingestLink jobID linkFail removeFail paths metas).linkErr = none
      ∧ (ingestLink jobID linkFail removeFail paths metas).removed = []) := by
  constructor
  · intro i e hi hfail hprev
    have := ingestLinkAux_fail jobID linkFail removeFail i paths metas 0 [] [] e
      hlen hi (by simpa using hfail) (by simpa using hprev)
    rw [ingestLink, this]
    simp
  · intro hall
    have := ingestLinkAux_ok jobID linkFail removeFail metas paths 0 [] []
      hlen (by simpa using hall)
    rw [ingestLink, this]
    simp

/-- Witness for thmC9: three files with the link failing at index 2 and
a cleanup removal that itself errors; the two installed objects are
removed and the original link error is returned. -/
theorem thmC9_witness :
    ([(0 : Nat), 1, 2].length = [exMetaA, exMetaB, exMetaSent].length) ∧
    ((∀ (i : Nat) (e : IngestErr), i < [exMetaA, exMetaB, exMetaSent].length →
      (fun i => if i = 2 then some IngestErr.ioFail else none) i = some e →
      (∀ j, j < i → (fun i => if i = 2 then some IngestErr.ioFail else none) j = none) →
      (ingestLink 4 (fun i => if i = 2 then some IngestErr.ioFail else none)
        (fun fn => if fn = 1 then some IngestErr.ioFail else none)
        [0, 1, 2] [exMetaA, exMetaB, exMetaSent]).linkErr = some e
      ∧ (ingestLink 4 (fun i => if i = 2 then some IngestErr.ioFail else none)
        (fun fn => if fn = 1 then some IngestErr.ioFail else none)
        [0, 1, 2] [exMetaA, exMetaB, exMetaSent]).removed =
          ([exMetaA, exMetaB, exMetaSent].take i).map (fun m => m.fileNum)
      ∧ (ingestLink 4 (fun i => if i = 2 then some IngestErr.ioFail else none)
        (fun fn => if fn = 1 then some IngestErr.ioFail else none)
        [0, 1, 2] [exMetaA, exMetaB, exMetaSent]).events =
          ([exMetaA, exMetaB, exMetaSent].take i).map
            (fun m => .tableCreated 4 m.fileNum))
    ∧ ((∀ j, j < [exMetaA, exMetaB, exMetaSent].length →
        (fun i => if i = 2 then some IngestErr.ioFail else none) j = none) →
      (ingestLink 4 (fun i => if i = 2 then some IngestErr.ioFail else none)
        (fun fn => if fn = 1 then some IngestErr.ioFail else none)
        [0, 1, 2] [exMetaA, exMetaB, exMetaSent]).linkErr = none
      ∧ (ingestLink 4 (fun i => if i = 2 then some IngestErr.ioFail else none)
        (fun fn => if fn = 1 then some IngestErr.ioFail else none)
        [0, 1, 2] [exMetaA, exMetaB, exMetaSent]).removed = [])) :=
  ⟨by decide, thmC9 4 (fun i => if i = 2 then some IngestErr.ioFail else none)
    (fun fn => if fn = 1 then some IngestErr.ioFail else none)
    [0, 1, 2] [exMetaA, exMetaB, exMetaSent] (by decide)⟩

/-- The environment of a DB.ingest run: input files, format bounds,
allocation counters, the outcomes of the effectful steps (link, remove,
sync), and the commit-pipeline/apply parameters.  The pipeline's
prepare outcome (ahead-of-time error or the flushable path) is supplied
as an oracle; the manifest state read under the edit lock is the
version, base level and compaction set. -/
structure IngestEnv (α : Type) where
  files : List (SSTFileModel α)
  minFormat : Nat
  maxFormat : Nat
  nextFileNum : Nat
  jobID : Nat
  linkFail : Nat → Option IngestErr
  removeFail : Nat → Option IngestErr
  syncFail : Option IngestErr
  seqNum : Nat
  prepErr : Option IngestErr
  asFlushable : Bool
  version : Version α
  baseLevel : Nat
  compactions : List (CompactionModel α)
  logAndApplyErr : Option IngestErr

/-- Result of the commit-pipeline phase of DB.ingest. -/
structure PipelineResult (α : Type) where
  metas : List (FileMetadata α)
  err : Option IngestErr
  flushable : Bool
  ve : Option (List (Nat × Int))

/-- The prepare/apply callbacks of DB.ingest around AllocateSeqNum.
Modelled from the spec for the parts outside ingest.go (the commit
pipeline invokes prepare then apply with the allocated base sequence
number): a prepare error skips apply; the flushable path stamps the
descriptors during prepare and takes no further action; otherwise apply
stamps the descriptors and runs ingestApply, which places each
descriptor with ingestTargetLevel and builds the version edit unless
log-and-apply fails. -/
def runPipeline {α : Type} (cmp : α → α → Int) (env : IngestEnv α)
    (metas : List (FileMetadata α)) : PipelineResult α :=
  match env.prepErr with
  | some e => { metas := metas, err := some e, flushable := false, ve := none }
  | none =>
    if env.asFlushable then
      let r := ingestUpdateSeqNum cmp env.seqNum metas
      { metas := r.1, err := r.2, flushable := true, ve := none }
    else
      let r := ingestUpdateSeqNum cmp env.seqNum metas
      match r.2 with
      | some e => { metas := r.1, err := some e, flushable := false, ve := none }
      | none =>
        match env.logAndApplyErr with
        | some e => { metas := r.1, err := some e, flushable := false, ve := none }
        | none =>
          { metas := r.1, err := none, flushable := false,
            ve := some (r.1.map (fun m =>
              (m.fileNum,
                (Int.ofNat (ingestTargetLevel cmp env.version env.baseLevel
                  env.compactions m))))) }

/-- Observable outcome of a DB.ingest run. -/
structure IngestOutcome (α : Type) where
  result : Option IngestErr
  events : List IngestEvent
  seqAllocCount : Option Nat
  installed : List Nat
  removed : List Nat
  veFiles : Option (List (Nat × Int))
  finalMeta : List (FileMetadata α)

/-- DB.ingest from ingest.go: allocate pending file numbers, load the
metadata (eliding empty files), return early when everything was empty,
sort and verify, link, sync, then run the commit pipeline
(AllocateSeqNum over the kept descriptors), clean up the installed
objects on a pipeline error, and emit the terminal TableIngested event
for runs that reached the pipeline. -/
def dbIngest {α : Type} [Inhabited α] (cmp : α → α → Int) (env : IngestEnv α) :
    IngestOutcome α :=
  match ingestLoad cmp env.minFormat env.maxFormat env.files
      (List.range env.files.length)
      (List.range' env.nextFileNum env.files.length) with
  | .error e =>
    { result := some e, events := [], seqAllocCount := none, installed := [],
      removed := [], veFiles := none, finalMeta := [] }
  | .ok (metas, kept) =>
    if metas.isEmpty then
      { result := none, events := [], seqAllocCount := none, installed := [],
        removed := [], veFiles := none, finalMeta := [] }
    else
      match ingestSortAndVerify cmp metas kept with
      | .error e =>
        { result := some e, events := [], seqAllocCount := none, installed := [],
          removed := [], veFiles := none, finalMeta := metas }
      | .ok (metas1, paths1) =>
        let lk := ingestLink env.jobID env.linkFail env.removeFail paths1 metas1
        match lk.linkErr with
        | some e =>
          { result := some e, events := lk.events, seqAllocCount := none,
            installed := lk.installed, removed := lk.removed, veFiles := none,
            finalMeta := metas1 }
        | none =>
          match env.syncFail with
          | some e =>
            { result := some e, events := lk.events, seqAllocCount := none,
              installed := lk.installed, removed := [], veFiles := none,
              finalMeta := metas1 }
          | none =>
            let pr := runPipeline cmp env metas1
            { result := pr.err,
              events := lk.events ++
                [.tableIngested env.jobID
                  (match pr.metas with | m :: _ => m.smallestSeqNum | [] => 0)
                  pr.err pr.flushable
                  (match pr.ve with
                   | some ve => ve
                   | none =>
                     if pr.flushable then
                       pr.metas.map (fun m => (m.fileNum, (-1 : Int)))
                     else [])],
              seqAllocCount := some metas1.length,
              installed := lk.installed,
              removed := match pr.err with
                | some _ => pr.metas.map (fun m => m.fileNum)
                | none => [],
              veFiles := pr.ve,
              finalMeta := pr.metas }

theorem validateKeyE_bad {α : Type} (k : InternalKey α)
    (h : k.kind = KeyKind.invalid ∨ k.seqNum ≠ 0) :
    validateKeyE k = .error .corruption := by
  simp only [validateKeyE]
  split_ifs with h1 h2
  · rfl
  · rfl
  · exact absurd h (by tauto)

/-- A successful sort-and-verify permutes the descriptors and keeps the
path list in lockstep. -/
theorem sortAndVerify_ok_perm {α : Type} (cmp : α → α → Int)
    (meta : List (FileMetadata α)) (paths : List Nat)
    (m2 : List (FileMetadata α)) (p2 : List Nat)
    (hlen : paths.length = meta.length)
    (h : ingestSortAndVerify cmp meta paths = .ok (m2, p2)) :
    m2.Perm meta ∧ p2.length = m2.length := by
  unfold ingestSortAndVerify at h
  by_cases hsz : meta.length ≤ 1
  · rw [if_pos hsz] at h
    simp only [Except.ok.injEq, Prod.mk.injEq] at h
    obtain ⟨rfl, rfl⟩ := h
    exact ⟨List.Perm.refl _, by omega⟩
  · rw [if_neg hsz] at h
    by_cases hv : verifyAdjacent cmp
        ((sortBy (metaPathLess cmp) (meta.zip paths)).map Prod.fst) = true
    · rw [if_pos hv] at h
      simp only [Except.ok.injEq, Prod.mk.injEq] at h
      obtain ⟨rfl, rfl⟩ := h
      constructor
      · have h1 := (sortBy_perm (metaPathLess cmp) (meta.zip paths)).map Prod.fst
        have h2 : (meta.zip paths).map Prod.fst = meta :=
          List.map_fst_zip meta paths (by omega)
        rw [h2] at h1
        exact h1
      · simp
    · rw [if_neg hv] at h
      exact absurd h (by simp)

theorem ingestUpdateSeqNum_fileNums {α : Type} (cmp : α → α → Int) (s : Nat)
    (ms : List (FileMetadata α)) :
    (ingestUpdateSeqNum cmp s ms).1.map (fun m => m.fileNum) =
      ms.map (fun m => m.fileNum) := by
  induction ms generalizing s with
  | nil => rfl
  | cons m rest ih =>
    cases hv : validateMeta cmp (updateMeta s m) with
    | true =>
      rw [ingestUpdateSeqNum_cons_pos cmp s m rest hv]
      simp only [List.map_cons]
      rw [ih (s + 1)]
      rfl
    | false =>
      rw [ingestUpdateSeqNum_cons_neg cmp s m rest hv]
      rfl

theorem ingestLinkAux_events_created {α : Type} (jobID : Nat)
    (linkFail removeFail : Nat → Option IngestErr) :
    ∀ (paths : List Nat) (metas : List (FileMetadata α)) (i0 : Nat)
      (evAcc : List IngestEvent) (insAcc : List Nat),
    (∀ e ∈ evAcc, e.isTableIngested = false) →
    ∀ e ∈ (ingestLinkAux jobID linkFail removeFail i0 paths metas evAcc insAcc).events,
      e.isTableIngested = false := by
  intro paths
  induction paths with
  | nil =>
    intro metas i0 evAcc insAcc hacc e he
    simp only [ingestLinkAux] at he
    exact hacc e he
  | cons p ps ih =>
    intro metas i0 evAcc insAcc hacc e he
    cases metas with
    | nil =>
      simp only [ingestLinkAux] at he
      exact hacc e he
    | cons mt msr =>
      simp only [ingestLinkAux] at he
      cases hf : linkFail i0 with
      | some er =>
        rw [hf] at he
        exact hacc e he
      | none =>
        rw [hf] at he
        refine ih msr (i0 + 1) _ _ ?_ e he
        intro e2 he2
        rcases List.mem_append.mp he2 with he2 | he2
        · exact hacc e2 he2
        · simp only [List.mem_singleton] at he2
          subst he2
          rfl

/-- The only error ingestValidateKey produces is corruption. -/
theorem validateKeyE_error {α : Type} (k : InternalKey α) (e : IngestErr)
    (h : validateKeyE k = .error e) : e = .corruption := by
  simp only [validateKeyE] at h
  split_ifs at h
  · simp only [Except.error.injEq] at h
    exact h.symm
  · simp only [Except.error.injEq] at h
    exact h.symm

/-- The point-key phase fails with corruption when its first or last
point key fails validation. -/
theorem load1Points_bad_boundary {α : Type} (cmp : α → α → Int)
    (m0 : FileMetadata α) (ps : List (InternalKey α)) (k : InternalKey α)
    (hk : ps.head? = some k ∨ ps.getLast? = some k)
    (hbad : k.kind = KeyKind.invalid ∨ k.seqNum ≠ 0) :
    load1Points cmp m0 ps = .error .corruption := by
  cases ps with
  | nil => rcases hk with hk | hk <;> simp at hk
  | cons a as =>
    obtain ⟨last, hl⟩ : ∃ last, (a :: as).getLast? = some last := by
      cases hx : (a :: as).getLast? with
      | none => rw [List.getLast?_eq_none_iff] at hx; simp at hx
      | some b => exact ⟨b, rfl⟩
    rcases hk with hk | hk
    · simp only [List.head?_cons, Option.some.injEq] at hk
      subst hk
      simp [load1Points, hl, validateKeyE_bad a hbad]
    · rw [hl] at hk
      simp only [Option.some.injEq] at hk
      subst hk
      cases h1 : validateKeyE a with
      | error e =>
        have he := validateKeyE_error a e h1
        subst he
        simp [load1Points, hl, h1]
      | ok u => simp [load1Points, hl, h1, validateKeyE_bad last hbad]

/-- The point-key phase only errors with corruption. -/
theorem load1Points_error {α : Type} (cmp : α → α → Int) (m0 : FileMetadata α)
    (ps : List (InternalKey α)) (e : IngestErr)
    (h : load1Points cmp m0 ps = .error e) : e = .corruption := by
  cases ps with
  | nil => simp [load1Points] at h
  | cons a as =>
    obtain ⟨last, hl⟩ : ∃ last, (a :: as).getLast? = some last := by
      cases hx : (a :: as).getLast? with
      | none => rw [List.getLast?_eq_none_iff] at hx; simp at hx
      | some b => exact ⟨b, rfl⟩
    simp only [load1Points, List.head?_cons, hl] at h
    cases h1 : validateKeyE a with
    | error e2 =>
      rw [h1] at h
      simp only [Except.error.injEq] at h
      rw [h.symm]
      exact validateKeyE_error a e2 h1
    | ok u =>
      rw [h1] at h
      cases h2 : validateKeyE last with
      | error e2 =>
        rw [h2] at h
        simp only [Except.error.injEq] at h
        rw [h.symm]
        exact validateKeyE_error last e2 h2
      | ok u2 =>
        rw [h2] at h
        simp at h

/-- The range-deletion phase fails with corruption when the start key of
its first or last span fails validation. -/
theorem load1RangeDels_bad_boundary {α : Type} (cmp : α → α → Int)
    (m1 : FileMetadata α) (sp : List (Span α)) (s : Span α)
    (hs : sp.head? = some s ∨ sp.getLast? = some s)
    (hbad : s.smallestKey.kind = KeyKind.invalid ∨ s.smallestKey.seqNum ≠ 0) :
    load1RangeDels cmp m1 sp = .error .corruption := by
  cases sp with
  | nil => rcases hs with hs | hs <;> simp at hs
  | cons a as =>
    obtain ⟨last, hl⟩ : ∃ last, (a :: as).getLast? = some last := by
      cases hx : (a :: as).getLast? with
      | none => rw [List.getLast?_eq_none_iff] at hx; simp at hx
      | some b => exact ⟨b, rfl⟩
    rcases hs with hs | hs
    · simp only [List.head?_cons, Option.some.injEq] at hs
      subst hs
      simp [load1RangeDels, hl, validateKeyE_bad a.smallestKey hbad]
    · rw [hl] at hs
      simp only [Option.some.injEq] at hs
      subst hs
      cases h1 : validateKeyE a.smallestKey with
      | error e =>
        have he := validateKeyE_error a.smallestKey e h1
        subst he
        simp [load1RangeDels, hl, h1]
      | ok u =>
        simp [load1RangeDels, hl, h1, validateKeyE_bad last.smallestKey hbad]

/-- The range-deletion phase only errors with corruption. -/
theorem load1RangeDels_error {α : Type} (cmp : α → α → Int) (m1 : FileMetadata α)
    (sp : List (Span α)) (e : IngestErr)
    (h : load1RangeDels cmp m1 sp = .error e) : e = .corruption := by
  cases sp with
  | nil => simp [load1RangeDels] at h
  | cons a as =>
    obtain ⟨last, hl⟩ : ∃ last, (a :: as).getLast? = some last := by
      cases hx : (a :: as).getLast? with
      | none => rw [List.getLast?_eq_none_iff] at hx; simp at hx
      | some b => exact ⟨b, rfl⟩
    simp only [load1RangeDels, List.head?_cons, hl] at h
    cases h1 : validateKeyE a.smallestKey with
    | error e2 =>
      rw [h1] at h
      simp only [Except.error.injEq] at h
      rw [h.symm]
      exact validateKeyE_error a.smallestKey e2 h1
    | ok u =>
      rw [h1] at h
      cases h2 : validateKeyE last.smallestKey with
      | error e2 =>
        rw [h2] at h
        simp only [Except.error.injEq] at h
        rw [h.symm]
        exact validateKeyE_error last.smallestKey e2 h2
      | ok u2 =>
        rw [h2] at h
        simp at h

/-- The range-key phase fails with corruption when the start key of its
first or last span fails validation. -/
theorem load1RangeKeys_bad_boundary {α : Type} (cmp : α → α → Int)
    (m2 : FileMetadata α) (sp : List (Span α)) (s : Span α)
    (hs : sp.head? = some s ∨ sp.getLast? = some s)
    (hbad : s.smallestKey.kind = KeyKind.invalid ∨ s.smallestKey.seqNum ≠ 0) :
    load1RangeKeys cmp m2 sp = .error .corruption := by
  cases sp with
  | nil => rcases hs with hs | hs <;> simp at hs
  | cons a as =>
    obtain ⟨last, hl⟩ : ∃ last, (a :: as).getLast? = some last := by
      cases hx : (a :: as).getLast? with
      | none => rw [List.getLast?_eq_none_iff] at hx; simp at hx
      | some b => exact ⟨b, rfl⟩
    rcases hs with hs | hs
    · simp only [List.head?_cons, Option.some.injEq] at hs
      subst hs
      simp [load1RangeKeys, hl, validateKeyE_bad a.smallestKey hbad]
    · rw [hl] at hs
      simp only [Option.some.injEq] at hs
      subst hs
      cases h1 : validateKeyE a.smallestKey with
      | error e =>
        have he := validateKeyE_error a.smallestKey e h1
        subst he
        simp [load1RangeKeys, hl, h1]
      | ok u =>
        simp [load1RangeKeys, hl, h1, validateKeyE_bad last.smallestKey hbad]

/-- A file with a failing boundary key — a bad first or last point key,
or a bad start key on the first or last range-deletion or range-key
span — makes ingestLoad1 return corruption: whichever validation the
loader reaches first fails, and every loader validation error is
corruption. -/
theorem ingestLoad1_bad_boundary {α : Type} [Inhabited α] (cmp : α → α → Int)
    (minF maxF : Nat) (f : SSTFileModel α) (fn : Nat)
    (ho : f.openErr = none)
    (hfmt : (f.tableFormat < minF || maxF < f.tableFormat) = false)
    (hbad :
      (∃ k, (f.points.head? = some k ∨ f.points.getLast? = some k) ∧
        (k.kind = KeyKind.invalid ∨ k.seqNum ≠ 0)) ∨
      (∃ s, (f.rangeDels.head? = some s ∨ f.rangeDels.getLast? = some s) ∧
        (s.smallestKey.kind = KeyKind.invalid ∨ s.smallestKey.seqNum ≠ 0)) ∨
      (∃ s, (f.rangeKeys.head? = some s ∨ f.rangeKeys.getLast? = some s) ∧
        (s.smallestKey.kind = KeyKind.invalid ∨ s.smallestKey.seqNum ≠ 0))) :
    ingestLoad1 cmp minF maxF f fn = .error .corruption := by
  rcases hbad with ⟨k, hk, hb⟩ | ⟨s, hs, hb⟩ | ⟨s, hs, hb⟩
  · have hpt := load1Points_bad_boundary cmp (emptyMeta fn f.size) f.points k hk hb
    simp [ingestLoad1, ho, hfmt, hpt]
  · cases hp : load1Points cmp (emptyMeta fn f.size) f.points with
    | error e =>
      have he := load1Points_error cmp (emptyMeta fn f.size) f.points e hp
      subst he
      simp [ingestLoad1, ho, hfmt, hp]
    | ok m1 =>
      have hrd := load1RangeDels_bad_boundary cmp m1 f.rangeDels s hs hb
      simp [ingestLoad1, ho, hfmt, hp, hrd]
  · cases hp : load1Points cmp (emptyMeta fn f.size) f.points with
    | error e =>
      have he := load1Points_error cmp (emptyMeta fn f.size) f.points e hp
      subst he
      simp [ingestLoad1, ho, hfmt, hp]
    | ok m1 =>
      cases hd : load1RangeDels cmp m1 f.rangeDels with
      | error e =>
        have he := load1RangeDels_error cmp m1 f.rangeDels e hd
        subst he
        simp [ingestLoad1, ho, hfmt, hp, hd]
      | ok m2 =>
        have hrk := load1RangeKeys_bad_boundary cmp m2 f.rangeKeys s hs hb
        simp [ingestLoad1, ho, hfmt, hp, hd, hrk]

/-- Claim C7 (amended from "any key" to the keys the loader actually
validates — the first and last point keys and the first and last span
start keys of the range-deletion and range-key iterators; a
non-boundary key with non-zero sequence number is accepted): a file any
of whose validated boundary keys has non-zero sequence number or
Invalid kind makes ingestLoad1 return Corruption, and an ingest of just
that file fails with Corruption having emitted no events, installed no
objects, removed nothing, and never calling AllocateSeqNum. -/
theorem thmC7 {α : Type} [Inhabited α] (cmp : α → α → Int) (env : IngestEnv α)
    (f : SSTFileModel α) (hf : env.files = [f]) (ho : f.openErr = none)
    (hfmt : (f.tableFormat < env.minFormat || env.maxFormat < f.tableFormat) = false)
    (hbad :
      (∃ k, (f.points.head? = some k ∨ f.points.getLast? = some k) ∧
        (k.kind = KeyKind.invalid ∨ k.seqNum ≠ 0)) ∨
      (∃ s, (f.rangeDels.head? = some s ∨ f.rangeDels.getLast? = some s) ∧
        (s.smallestKey.kind = KeyKind.invalid ∨ s.smallestKey.seqNum ≠ 0)) ∨
      (∃ s, (f.rangeKeys.head? = some s ∨ f.rangeKeys.getLast? = some s) ∧
        (s.smallestKey.kind = KeyKind.invalid ∨ s.smallestKey.seqNum ≠ 0))) :
    (∀ fn, ingestLoad1 cmp env.minFormat env.maxFormat f fn = .error .corruption)
    ∧ (dbIngest cmp env).result = some IngestErr.corruption
    ∧ (dbIngest cmp env).events = []
    ∧ (dbIngest cmp env).installed = []
    ∧ (dbIngest cmp env).seqAllocCount = none
    ∧ (dbIngest cmp env).removed = [] := by
  have hload1 : ∀ fn, ingestLoad1 cmp env.minFormat env.maxFormat f fn =
      .error .corruption := fun fn =>
    ingestLoad1_bad_boundary cmp env.minFormat env.maxFormat f fn ho hfmt hbad
  have hload : ingestLoad cmp env.minFormat env.maxFormat env.files
      (List.range env.files.length)
      (List.range' env.nextFileNum env.files.length) = .error .corruption := by
    rw [hf]
    simp [ingestLoad, hload1]
  refine ⟨hload1, ?_, ?_, ?_, ?_, ?_⟩ <;> simp [dbIngest, hload]

/-- Counterexample to claim C7 as stated: a file containing a middle
point key with non-zero sequence number is accepted by the loader (only
the first and last keys are validated). -/
theorem thmC7_cex :
    ((⟨none, 5, 3, [⟨1, 0, .set⟩, ⟨2, 7, .set⟩, ⟨3, 0, .set⟩], [], []⟩ :
        SSTFileModel Nat).points.any (fun k => decide (k.seqNum ≠ 0)) = true)
    ∧ (match ingestLoad1 natCmp 1 9
        (⟨none, 5, 3, [⟨1, 0, .set⟩, ⟨2, 7, .set⟩, ⟨3, 0, .set⟩], [], []⟩ :
          SSTFileModel Nat) 5 with
      | .ok (some _) => true
      | _ => false) = true := by
  refine ⟨by decide, by decide⟩

/-- The ingest environment holding one file whose first point key has a
non-zero sequence number. -/
def envBadLoad : IngestEnv Nat :=
  { files := [⟨none, 5, 3, [⟨1, 5, .set⟩], [], []⟩],
    minFormat := 1, maxFormat := 9, nextFileNum := 100, jobID := 3,
    linkFail := fun _ => none, removeFail := fun _ => none, syncFail := none,
    seqNum := 50, prepErr := none, asFlushable := false,
    version := vEmpty, baseLevel := 1, compactions := [], logAndApplyErr := none }

/-- Witness for thmC7 at the concrete one-file environment. -/
theorem thmC7_witness :
    envBadLoad.files = [⟨none, 5, 3, [⟨1, 5, .set⟩], [], []⟩] ∧
    ((∀ fn, ingestLoad1 natCmp envBadLoad.minFormat envBadLoad.maxFormat
        (⟨none, 5, 3, [⟨1, 5, .set⟩], [], []⟩ : SSTFileModel Nat) fn =
        .error .corruption)
      ∧ (dbIngest natCmp envBadLoad).result = some IngestErr.corruption
      ∧ (dbIngest natCmp envBadLoad).events = []
      ∧ (dbIngest natCmp envBadLoad).installed = []
      ∧ (dbIngest natCmp envBadLoad).seqAllocCount = none
      ∧ (dbIngest natCmp envBadLoad).removed = []) :=
  ⟨rfl, thmC7 natCmp envBadLoad ⟨none, 5, 3, [⟨1, 5, .set⟩], [], []⟩ rfl rfl
    (by decide) (Or.inl ⟨⟨1, 5, .set⟩, Or.inl rfl, Or.inr (by decide)⟩)⟩

/-- Claim C8: a file with neither point nor range keys is reported empty
by the loader, is dropped from the descriptor and path lists (its
allocated file number appears in no kept descriptor), consumes no
sequence number (AllocateSeqNum, when reached, is called with the count
of content-bearing files only), and contributes no entry to the version
edit. -/
theorem thmC8 {α : Type} [Inhabited α] (cmp : α → α → Int) (env : IngestEnv α)
    (i : Nat) (hi : i < env.files.length)
    (hpts : (env.files.get ⟨i, hi⟩).points = [])
    (hrd : (env.files.get ⟨i, hi⟩).rangeDels = [])
    (hrk : (env.files.get ⟨i, hi⟩).rangeKeys = [])
    (ho : (env.files.get ⟨i, hi⟩).openErr = none)
    (hfmt : ((env.files.get ⟨i, hi⟩).tableFormat < env.minFormat ||
        env.maxFormat < (env.files.get ⟨i, hi⟩).tableFormat) = false) :
    (∀ fn, ingestLoad1 cmp env.minFormat env.maxFormat
        (env.files.get ⟨i, hi⟩) fn = .ok none)
    ∧ (∀ ms qs, ingestLoad cmp env.minFormat env.maxFormat env.files
        (List.range env.files.length)
        (List.range' env.nextFileNum env.files.length) = .ok (ms, qs) →
        ms.length = env.files.countP fileHasContent ∧ qs.length = ms.length ∧
        (env.nextFileNum + i) ∉ ms.map (fun m => m.fileNum))
    ∧ ((dbIngest cmp env).seqAllocCount = none ∨
        (dbIngest cmp env).seqAllocCount =
          some (env.files.countP fileHasContent))
    ∧ (∀ ve, (dbIngest cmp env).veFiles = some ve →
        ∀ p ∈ ve, p.1 ≠ env.nextFileNum + i) := by
  simp only [List.get_eq_getElem] at hpts hrd hrk ho hfmt
  have hcontent : fileHasContent (env.files.get ⟨i, hi⟩) = false := by
    simp [fileHasContent, hpts, hrd, hrk]
  have part1 : ∀ fn, ingestLoad1 cmp env.minFormat env.maxFormat
      (env.files.get ⟨i, hi⟩) fn = .ok none := by
    intro fn
    simp [ingestLoad1, ho, hfmt, hpts, hrd, hrk, load1Points,
      load1RangeDels, load1RangeKeys, emptyMeta]
  have part2 : ∀ ms qs, ingestLoad cmp env.minFormat env.maxFormat env.files
      (List.range env.files.length)
      (List.range' env.nextFileNum env.files.length) = .ok (ms, qs) →
      ms.length = env.files.countP fileHasContent ∧ qs.length = ms.length ∧
      (env.nextFileNum + i) ∉ ms.map (fun m => m.fileNum) := by
    intro ms qs hld
    obtain ⟨hlenA, hlenB, hmem⟩ := ingestLoad_ok cmp env.minFormat env.maxFormat
      env.files (List.range env.files.length)
      (List.range' env.nextFileNum env.files.length) ms qs
      (by simp) (by simp) hld
    refine ⟨hlenA, hlenB, ?_⟩
    intro hbad
    simp only [List.mem_map] at hbad
    obtain ⟨m, hm, hnum⟩ := hbad
    obtain ⟨j, hj, hjf, hnumj, hcontj⟩ := hmem m hm
    have hval : (List.range' env.nextFileNum env.files.length).get ⟨j, hjf⟩ =
        env.nextFileNum + j := by
      simp [List.getElem_range']
    rw [hval] at hnumj
    have hji : j = i := by omega
    subst hji
    rw [hcontj] at hcontent
    simp at hcontent
  refine ⟨part1, part2, ?_, ?_⟩
  · cases hld : ingestLoad cmp env.minFormat env.maxFormat env.files
        (List.range env.files.length)
        (List.range' env.nextFileNum env.files.length) with
    | error e => left; simp [dbIngest, hld]
    | ok pr =>
      obtain ⟨ms, qs⟩ := pr
      cases hemp : ms.isEmpty with
      | true => left; simp [dbIngest, hld, hemp]
      | false =>
        cases hsv : ingestSortAndVerify cmp ms qs with
        | error e => left; simp [dbIngest, hld, hemp, hsv]
        | ok pr2 =>
          obtain ⟨ms1, qs1⟩ := pr2
          cases hle : (ingestLink env.jobID env.linkFail env.removeFail
              qs1 ms1).linkErr with
          | some e => left; simp [dbIngest, hld, hemp, hsv, hle]
          | none =>
            cases hsy : env.syncFail with
            | some e => left; simp [dbIngest, hld, hemp, hsv, hle, hsy]
            | none =>
              right
              obtain ⟨hlenA, hlenB, _⟩ := part2 ms qs hld
              obtain ⟨hperm, _⟩ := sortAndVerify_ok_perm cmp ms qs ms1 qs1
                (by omega) hsv
              simp only [dbIngest, hld, hemp, hsv, hle, hsy]
              simp [hperm.length_eq, hlenA]
  · cases hld : ingestLoad cmp env.minFormat env.maxFormat env.files
        (List.range env.files.length)
        (List.range' env.nextFileNum env.files.length) with
    | error e => intro ve hve; simp [dbIngest, hld] at hve
    | ok pr =>
      obtain ⟨ms, qs⟩ := pr
      cases hemp : ms.isEmpty with
      | true => intro ve hve; simp [dbIngest, hld, hemp] at hve
      | false =>
        cases hsv : ingestSortAndVerify cmp ms qs with
        | error e => intro ve hve; simp [dbIngest, hld, hemp, hsv] at hve
        | ok pr2 =>
          obtain ⟨ms1, qs1⟩ := pr2
          cases hle : (ingestLink env.jobID env.linkFail env.removeFail
              qs1 ms1).linkErr with
          | some e => intro ve hve; simp [dbIngest, hld, hemp, hsv, hle] at hve
          | none =>
            cases hsy : env.syncFail with
            | some e =>
              intro ve hve
              simp [dbIngest, hld, hemp, hsv, hle, hsy] at hve
            | none =>
              intro ve hve
              simp only [dbIngest, hld, hemp, hsv, hle, hsy] at hve
              obtain ⟨_, _, hnotin⟩ := part2 ms qs hld
              obtain ⟨hperm, _⟩ := sortAndVerify_ok_perm cmp ms qs ms1 qs1
                (by
                  obtain ⟨_, hlenB, _⟩ := part2 ms qs hld
                  omega) hsv
              cases hpe : env.prepErr with
              | some e => simp [runPipeline, hpe] at hve
              | none =>
                cases hfl : env.asFlushable with
                | true => simp [runPipeline, hpe, hfl] at hve
                | false =>
                  cases hst : (ingestUpdateSeqNum cmp env.seqNum ms1).2 with
                  | some e => simp [runPipeline, hpe, hfl, hst] at hve
                  | none =>
                    cases hla : env.logAndApplyErr with
                    | some e => simp [runPipeline, hpe, hfl, hst, hla] at hve
                    | none =>
                      simp only [runPipeline, hpe, hfl, hst, hla] at hve
                      simp only [Bool.false_eq_true, if_false] at hve
                      simp only [Option.some.injEq] at hve
                      intro p hp
                      rw [hve.symm] at hp
                      simp only [List.mem_map] at hp
                      obtain ⟨m, hm, hpeq⟩ := hp
                      intro hcontra
                      have hmem2 : m.fileNum ∈
                          (ingestUpdateSeqNum cmp env.seqNum ms1).1.map
                            (fun m => m.fileNum) :=
                        List.mem_map.mpr ⟨m, hm, rfl⟩
                      rw [ingestUpdateSeqNum_fileNums] at hmem2
                      have hmem3 : m.fileNum ∈ ms.map (fun m => m.fileNum) :=
                        ((hperm.map (fun m => m.fileNum)).mem_iff).mp hmem2
                      have hpm : p.1 = m.fileNum := by rw [hpeq.symm]
                      have hfix : m.fileNum = env.nextFileNum + i := by omega
                      rw [hfix] at hmem3
                      exact hnotin hmem3

/-- A two-file environment whose first file is empty and second carries
two point keys. -/
def envWithEmpty : IngestEnv Nat :=
  { files := [⟨none, 5, 3, [], [], []⟩,
      ⟨none, 5, 4, [⟨1, 0, .set⟩, ⟨2, 0, .set⟩], [], []⟩],
    minFormat := 1, maxFormat := 9, nextFileNum := 200, jobID := 8,
    linkFail := fun _ => none, removeFail := fun _ => none, syncFail := none,
    seqNum := 60, prepErr := none, asFlushable := false,
    version := vEmpty, baseLevel := 1, compactions := [], logAndApplyErr := none }

/-- Witness for thmC8: the empty first file of a concrete two-file
ingest. -/
theorem thmC8_witness :
    (envWithEmpty.files.get ⟨0, by decide⟩).points = [] ∧
    ((∀ fn, ingestLoad1 natCmp envWithEmpty.minFormat envWithEmpty.maxFormat
        (envWithEmpty.files.get ⟨0, by decide⟩) fn = .ok none)
    ∧ (∀ ms qs, ingestLoad natCmp envWithEmpty.minFormat envWithEmpty.maxFormat
        envWithEmpty.files (List.range envWithEmpty.files.length)
        (List.range' envWithEmpty.nextFileNum envWithEmpty.files.length) =
          .ok (ms, qs) →
        ms.length = envWithEmpty.files.countP fileHasContent ∧
        qs.length = ms.length ∧
        (envWithEmpty.nextFileNum + 0) ∉ ms.map (fun m => m.fileNum))
    ∧ ((dbIngest natCmp envWithEmpty).seqAllocCount = none ∨
        (dbIngest natCmp envWithEmpty).seqAllocCount =
          some (envWithEmpty.files.countP fileHasContent))
    ∧ (∀ ve, (dbIngest natCmp envWithEmpty).veFiles = some ve →
        ∀ p ∈ ve, p.1 ≠ envWithEmpty.nextFileNum + 0)) :=
  ⟨by decide,
    thmC8 natCmp envWithEmpty 0 (by decide) (by decide) (by decide) (by decide)
      (by decide) (by decide)⟩

/-- Claim C6 (amended: the terminal event is emitted only by runs that
reach the commit pipeline — all inputs loaded, at least one non-empty,
sort, link and sync successful; runs failing earlier, and all-empty
ingests, return without emitting TableIngested): such a run emits
exactly one TableIngested event, it carries the terminal error, and
AllocateSeqNum was called over the kept descriptors. -/
theorem thmC6 {α : Type} [Inhabited α] (cmp : α → α → Int) (env : IngestEnv α)
    (metas : List (FileMetadata α)) (kept : List Nat)
    (hld : ingestLoad cmp env.minFormat env.maxFormat env.files
        (List.range env.files.length)
        (List.range' env.nextFileNum env.files.length) = .ok (metas, kept))
    (hne : metas.isEmpty = false)
    (metas1 : List (FileMetadata α)) (paths1 : List Nat)
    (hsv : ingestSortAndVerify cmp metas kept = .ok (metas1, paths1))
    (hle : (ingestLink env.jobID env.linkFail env.removeFail paths1 metas1).linkErr
      = none)
    (hsy : env.syncFail = none) :
    (dbIngest cmp env).events.countP (fun e => e.isTableIngested) = 1
    ∧ (∀ e ∈ (dbIngest cmp env).events, e.isTableIngested = true →
        e.ingestedErr = (dbIngest cmp env).result)
    ∧ (dbIngest cmp env).seqAllocCount = some metas1.length := by
  have hlinkev : ∀ e ∈ (ingestLink env.jobID env.linkFail env.removeFail
      paths1 metas1).events, e.isTableIngested = false :=
    ingestLinkAux_events_created env.jobID env.linkFail env.removeFail
      paths1 metas1 0 [] [] (by simp)
  refine ⟨?_, ?_, ?_⟩
  · simp [dbIngest, hld, hne, hsv, hle, hsy, List.countP_append,
      IngestEvent.isTableIngested]
    intro a ha
    exact hlinkev a ha
  · intro e he hti
    simp only [dbIngest, hld, hne, hsv, hle, hsy] at he ⊢
    simp only [Bool.false_eq_true, if_false] at he ⊢
    rcases List.mem_append.mp he with he2 | he2
    · exact absurd hti (by simp [hlinkev e he2])
    · simp only [List.mem_singleton] at he2
      subst he2
      rfl
  · simp [dbIngest, hld, hne, hsv, hle, hsy]

/-- Counterexample to claim C6 as stated: an ingest that fails during
metadata loading returns the corruption error without emitting any
TableIngested event. -/
theorem thmC6_cex :
    (dbIngest natCmp envBadLoad).result = some IngestErr.corruption ∧
    (dbIngest natCmp envBadLoad).events.any (fun e => e.isTableIngested) = false ∧
    (dbIngest natCmp envBadLoad).events = [] :=
  ⟨by decide, by decide, by decide⟩

/-- A one-file environment in which every step succeeds. -/
def envOk : IngestEnv Nat :=
  { files := [⟨none, 5, 4, [⟨1, 0, .set⟩, ⟨2, 0, .set⟩], [], []⟩],
    minFormat := 1, maxFormat := 9, nextFileNum := 300, jobID := 11,
    linkFail := fun _ => none, removeFail := fun _ => none, syncFail := none,
    seqNum := 70, prepErr := none, asFlushable := false,
    version := vEmpty, baseLevel := 1, compactions := [], logAndApplyErr := none }

/-- The descriptor the loader derives for envOk's single file. -/
def exLoadedMeta : FileMetadata Nat :=
  { fileNum := 300, size := 4,
    smallest := ⟨1, 0, .set⟩, largest := ⟨2, 0, .set⟩,
    hasPointKeys := true,
    smallestPointKey := ⟨1, 0, .set⟩, largestPointKey := ⟨2, 0, .set⟩,
    hasRangeKeys := false,
    smallestRangeKey := ⟨0, 0, .del⟩, largestRangeKey := ⟨0, 0, .del⟩,
    smallestSeqNum := 0, largestSeqNum := 0 }

set_option maxRecDepth 8000 in
/-- Witness for thmC6 at a concrete fully successful ingest. -/
theorem thmC6_witness :
    (ingestLoad natCmp envOk.minFormat envOk.maxFormat envOk.files
      (List.range envOk.files.length)
      (List.range' envOk.nextFileNum envOk.files.length) =
        .ok ([exLoadedMeta], [0])) ∧
    (ingestSortAndVerify natCmp [exLoadedMeta] [0] = .ok ([exLoadedMeta], [0])) ∧
    (ingestLink envOk.jobID envOk.linkFail envOk.removeFail
      [0] [exLoadedMeta]).linkErr = none ∧
    ((dbIngest natCmp envOk).events.countP (fun e => e.isTableIngested) = 1
      ∧ (∀ e ∈ (dbIngest natCmp envOk).events, e.isTableIngested = true →
          e.ingestedErr = (dbIngest natCmp envOk).result)
      ∧ (dbIngest natCmp envOk).seqAllocCount = some 1) :=
  ⟨rfl, rfl, rfl,
    thmC6 natCmp envOk [exLoadedMeta] [0] rfl rfl [exLoadedMeta] [0] rfl rfl rfl⟩

end Pebble
